import Mathlib

/-!
Verification development for the kiwi i18n extract-and-rewrite pipeline.

The TypeScript sources are shallowly embedded:

* JavaScript strings are modelled as `List Char` (`JStr`).  All the string
  indices the pipeline manipulates are UTF-16 code-unit indices; every
  character appearing in the pipeline's data (ASCII and BMP CJK) occupies a
  single code unit, so list indices coincide with JS indices.
* External collaborators (the dialect parsers, lodash's `camelCase`, the
  translator, the file system) are modelled as explicit inputs: a parser's
  output is passed in as data, a thrown parse error is an `Except.error`,
  and a file read is a parameter.
* The catalog object (`finalLangObj`) is an insertion-ordered association
  list, mirroring a JS object with string keys.
* `while` loops are embedded with explicit fuel; a loop that would not have
  terminated within the fuel surfaces as `Option.none`.

Definitions keep the names of the TypeScript functions they embed
(`src/kiwi-cli/src/extract/findChineseText.ts`,
`src/kiwi-cli/src/extract/replace.ts` and the two extract variants).
-/

namespace Kiwi

/-- JavaScript string, as a list of characters. -/
abbrev JStr := List Char

/-- Coerce a Lean string literal to a `JStr`. -/
def jsStr (s : String) : JStr := s.toList

/-- The backtick character (U+0060). -/
def btk : Char := Char.ofNat 96

/-- Chinese-detection predicate shared by all extractors: the regex
`/[一-鿿]/` of `findChineseText.ts`, i.e. some character lies in
U+4E00..U+9FFF. -/
def hasChinese (s : JStr) : Bool :=
  s.any (fun c => 0x4E00 ≤ c.toNat && c.toNat ≤ 0x9FFF)

/-- Half-open byte range `[start, stop)` of a span record (`range.end` in the
source; `end` is a Lean keyword, so the field is called `stop`). -/
structure TRange where
  start : Nat
  stop : Nat
deriving DecidableEq, Repr

/-- Span record: the `{ text, range, isString }` objects produced by the
extractors of `findChineseText.ts`. -/
structure SpanRec where
  text : JStr
  range : TRange
  isString : Bool
deriving DecidableEq, Repr

/-- JS `code.slice(a, b)` for `0 ≤ a ≤ b ≤ len` (the only use sites). -/
def jsSlice (s : JStr) (a b : Nat) : JStr := (s.take b).drop a

/-- JS `code[i]` (`undefined` out of bounds becomes `none`). -/
def jsCharAt (s : JStr) (i : Nat) : Option Char := s.get? i

/-! ## extract.ts : ordering of spans and translator fragments -/

/-- Comparison used to embed `_.sortBy(texts, obj => -obj.range.start)`:
lodash sorts ascending by the iteratee, i.e. descending by `range.start`. -/
def byDescStart (a b : SpanRec) : Bool := b.range.start ≤ a.range.start

/-- Stable insertion into a descending-sorted list: the new element goes in
front of every element of equal key, preserving the original relative order
of ties, as lodash's stable `sortBy` does. -/
def insertDesc (a : SpanRec) : List SpanRec → List SpanRec
  | [] => [a]
  | b :: l => if byDescStart a b then a :: b :: l else b :: insertDesc a l

/-- `const sortTexts = _.sortBy(texts, obj => -obj.range.start);`
(`findAllChineseText`, both extract variants): spans of one file stably
sorted by descending `range.start` (insertion sort — any stable sort models
lodash's `sortBy`). -/
def sortTexts : List SpanRec → List SpanRec
  | [] => []
  | a :: l => insertDesc a (sortTexts l)

/-- `filterTargetStrs` (extract variant with helpers; inlined verbatim in
`generateKeyAndReplace` of the other variant): drop a span when some span
occurring later in the (descending-sorted) list has `range.end` at least as
large. -/
def filterTargetStrs : List SpanRec → List SpanRec
  | [] => []
  | strObj :: afterStrs =>
    if afterStrs.any (fun obj => strObj.range.stop ≤ obj.range.stop) then
      filterTargetStrs afterStrs
    else
      strObj :: filterTargetStrs afterStrs

/-- The per-file span normalization as the pipeline performs it: sort by
descending start (`findAllChineseText`), then filter nested spans
(`filterTargetStrs`). -/
def normalizeSpans (texts : List SpanRec) : List SpanRec :=
  filterTargetStrs (sortTexts texts)

/-- Character class of the regex `/[a-zA-Z一-龥]+/g` in
`getTransOriginText`. -/
def isTransKeep (c : Char) : Bool :=
  (0x61 ≤ c.toNat && c.toNat ≤ 0x7A) || (0x41 ≤ c.toNat && c.toNat ≤ 0x5A) ||
    (0x4E00 ≤ c.toNat && c.toNat ≤ 0x9FA5)

/-- `text.match(/[a-zA-Z一-龥]+/g)`: the maximal runs of characters
in the class, in order (`null` for no match is modelled as `[]`, merged with
the `|| []` in the source). -/
def matchTransRuns : JStr → List JStr
  | [] => []
  | c :: cs =>
    if isTransKeep c then
      let run := (c :: cs).takeWhile isTransKeep
      run :: matchTransRuns ((c :: cs).drop run.length)
    else
      matchTransRuns cs
termination_by s => s.length
decreasing_by
  · simp only [List.length_drop]
    have : ((c :: cs).takeWhile isTransKeep).length > 0 := by
      simp [List.takeWhile, *]
    simp only [List.length_cons]
    omega
  · simp

/-- A JS array (even an empty one) is an object, hence truthy. -/
def jsTruthyArray (_l : List α) : Bool := true

/-- `getTransOriginText` (identical in both extract variants): keep only
Chinese characters and Latin letters, join, truncate to five characters.
The source's
`findText ? findText.join('').slice(0, 5) : '中文符号'`
tests `findText = text.match(reg) || []`, which is always an array and
therefore always truthy: the sentinel branch is dead code (kept here
verbatim). -/
def getTransOriginText (text : JStr) : JStr :=
  let findText := matchTransRuns text
  if jsTruthyArray findText then (findText.flatten).take 5
  else jsStr "中文符号"

/-- The delimiter-joined translation batch built by the
`targetStrs.reduce((prev, curr, i) => i === 0 ? t : prev + delimiter + t, [])`
of `batchTranslate` (Baidu / Pinyin providers): fragments in the order of
`targetStrs`. -/
def translateOriginTexts (delimiter : JStr) : List SpanRec → JStr
  | [] => []
  | t :: ts =>
    ts.foldl (fun prev curr => prev ++ delimiter ++ getTransOriginText curr.text)
      (getTransOriginText t.text)

/-- The Google path of `batchTranslate`:
`targetStrs.reduce((prev, curr) => prev.concat(translateText(...)), [])`
issues one call per span, in `targetStrs` order; the list of fragments sent. -/
def translatePromises (targetStrs : List SpanRec) : List JStr :=
  targetStrs.foldl (fun prev curr => prev ++ [getTransOriginText curr.text]) []

/-! ## Catalog model and key de-duplication -/

/-- The flattened language object (`finalLangObj`): an insertion-ordered map
from dotted keys to the preserved Chinese text. -/
abbrev LangObj := List (String × JStr)

/-- Modelled from the spec: `lookupByValue(v)` of the Catalog Store — the
first key whose value equals `v`, in insertion order (`findMatchKey` lives in
`src/kiwi-cli/src/utils`, which is not part of the provided sources). -/
def findMatchKey (obj : LangObj) (text : JStr) : Option String :=
  (obj.find? (fun p => p.2 = text)).map (fun p => p.1)

/-- Modelled from the spec: `lookupByKey(k)` of the Catalog Store — the value
bound to `k`, if any (`findMatchValue` lives in `src/kiwi-cli/src/utils`,
which is not part of the provided sources). -/
def findMatchValue (obj : LangObj) (key : String) : Option JStr :=
  (obj.find? (fun p => p.1 = key)).map (fun p => p.2)

/-- `_.keys(finalLangObj).includes(k)`. -/
def keysIncludes (obj : LangObj) (key : String) : Bool :=
  obj.any (fun p => p.1 = key)

/-- `finalLangObj[k] = v` on a JS object: overwrite when present, append
otherwise. -/
def langInsert (obj : LangObj) (key : String) (v : JStr) : LangObj :=
  if keysIncludes obj key then
    obj.map (fun p => if p.1 = key then (key, v) else p)
  else
    obj ++ [(key, v)]

/-- The suffix `${occurTime >= 2 ? occurTime : ''}` appended to the base key
in the collision loop. -/
def occSfx (occurTime : Nat) : String :=
  if 2 ≤ occurTime then Nat.repr occurTime else ""

/-- One evaluation of the `while` condition of `deduplicateKey`:
`findMatchValue(finalLangObj, key) !== text &&
 _.keys(finalLangObj).includes(transKey + sfx)`
(`key` is `transKey` throughout the loop: it is only reassigned after the
loop exits). -/
def dedupCond (obj : LangObj) (transKey : String) (text : JStr)
    (occurTime : Nat) : Bool :=
  (findMatchValue obj transKey ≠ some text) &&
    keysIncludes obj (transKey ++ occSfx occurTime)

/-- Fuel-indexed embedding of the collision `while` loop: returns the final
`occurTime`, or `none` if the loop would still be running when the fuel runs
out. -/
def dedupGo (obj : LangObj) (transKey : String) (text : JStr) :
    Nat → Nat → Option Nat
  | 0, _ => none
  | fuel + 1, occurTime =>
    if dedupCond obj transKey text occurTime then
      dedupGo obj transKey text fuel (occurTime + 1)
    else
      some occurTime

/-- `deduplicateKey` (extract variant with helpers; inlined verbatim in
`getReplaceableStrs` of the other variant): run the collision loop from
`occurTime = 1`; on exit with `occurTime >= 2` suffix the base key with the
decimal `occurTime`. -/
def deduplicateKey (obj : LangObj) (transKey : String) (text : JStr) :
    Option String :=
  match dedupGo obj transKey text (obj.length + 1) 1 with
  | none => none
  | some occurTime =>
    some (if 2 ≤ occurTime then transKey ++ Nat.repr occurTime else transKey)

/-! ## getReplaceableStrs : key assignment -/

/-- One element of the `replaceableStrs` list built by
`getReplaceableStrs`. -/
structure ReplaceStrItem where
  target : SpanRec
  key : String
  needWrite : Bool
deriving DecidableEq, Repr

/-- The global single-character regex replace turning every hyphen into an
underscore (`key.replace` with the hyphen regex and underscore replacement,
used on keys throughout `getReplaceableStrs`). -/
def replaceHyphens (s : String) : String :=
  String.mk (s.toList.map (fun c => if c = '-' then '_' else c))

/-- `translateTexts[i] && _.camelCase(translateTexts[i])`, interpolated into
a template literal: a missing element (`undefined`) prints as `"undefined"`,
an empty string short-circuits to itself.  `camelCase` (lodash, an external
library) is passed in as a function. -/
def jsTransText (camelCase : String → String) (translateTexts : List String)
    (i : Nat) : String :=
  match translateTexts.get? i with
  | none => "undefined"
  | some t => if t = "" then "" else camelCase t

/-- The base key composed in `getReplaceableStrs` (helper `generateNewKey` in
one variant): join the suggestion segments with dots and append the
translated text, replace every hyphen with an underscore, and, when an
explicit langs prefix is configured, override with the prefix followed by a
dot and the raw translated text (note the hyphen replacement happens before
the override, exactly as in the source).  `suggestion` is the path-derived
list computed by `getSuggestion` from the file name; it is passed in
explicitly here. -/
def composeTransKey (suggestion : List String) (langsPfx : Option String)
    (transText : String) : String :=
  let transKey :=
    (if suggestion.length ≠ 0 then String.intercalate "." suggestion ++ "." else "")
      ++ transText
  let transKey := replaceHyphens transKey
  match langsPfx with
  | some p => p ++ "." ++ transText
  | none => transKey

/-- First binding of `text` in the `virtualMemory` object. -/
def vmLookup (vm : List (JStr × String)) (text : JStr) : Option String :=
  (vm.find? (fun p => p.1 = text)).map (fun p => p.2)

/-- The `targetStrs.reduce` of `getReplaceableStrs`, with the mutable
`virtualMemory` and `finalLangObj` threaded explicitly and the element index
`i` made explicit (it selects `translateTexts[i]`).  `none` only when the
collision loop of `deduplicateKey` fails to exit within its fuel. -/
def getReplaceableStrsGo (camelCase : String → String)
    (suggestion : List String) (langsPfx : Option String)
    (translateTexts : List String) :
    LangObj → List (JStr × String) → Nat → List SpanRec →
    Option (List ReplaceStrItem)
  | _, _, _, [] => some []
  | lang, vm, i, curr :: rest =>
    let t := curr.text
    let key? := (findMatchKey lang t).map (fun k => replaceHyphens k)
    match vmLookup vm t with
    | some memo =>
      match getReplaceableStrsGo camelCase suggestion langsPfx translateTexts
          lang vm (i + 1) rest with
      | none => none
      | some tail => some (⟨curr, memo, true⟩ :: tail)
    | none =>
      match key? with
      | some k =>
        match getReplaceableStrsGo camelCase suggestion langsPfx translateTexts
            lang ((t, k) :: vm) (i + 1) rest with
        | none => none
        | some tail => some (⟨curr, k, false⟩ :: tail)
      | none =>
        let transText := jsTransText camelCase translateTexts i
        let transKey := composeTransKey suggestion langsPfx transText
        match deduplicateKey lang transKey t with
        | none => none
        | some finalKey =>
          match getReplaceableStrsGo camelCase suggestion langsPfx translateTexts
              (langInsert lang finalKey t) ((t, finalKey) :: vm) (i + 1) rest with
          | none => none
          | some tail => some (⟨curr, finalKey, true⟩ :: tail)

/-- `getReplaceableStrs` (both extract variants): assign a key to every
span of `targetStrs`, consulting the catalog (`finalLangObj`, the flattened
language object of `getSuggestLangObj`) and pairing the `i`-th span with
`translateTexts[i]`. -/
def getReplaceableStrs (camelCase : String → String)
    (finalLangObj : LangObj) (suggestion : List String)
    (langsPfx : Option String) (translateTexts : List String)
    (targetStrs : List SpanRec) : Option (List ReplaceStrItem) :=
  getReplaceableStrsGo camelCase suggestion langsPfx translateTexts
    finalLangObj [] 0 targetStrs

/-! ## replace.ts : template strings -/

/-- All matches of the global regex that finds template-literal
interpolations in `handleTemplateString` (a dollar, an opening brace, one or
more non-closing-brace characters, a closing brace): scan left to right,
resuming after each match; a failed attempt advances one character, exactly
like the JS regex engine. -/
def findInterps : JStr → List JStr
  | '$' :: '{' :: rest =>
    let inner := rest.takeWhile (fun c => c ≠ '}')
    let rem := rest.drop inner.length
    if inner.length ≠ 0 ∧ rem.head? = some '}' then
      ('$' :: '{' :: (inner ++ ['}'])) :: findInterps (rem.drop 1)
    else
      findInterps ('{' :: rest)
  | _ :: cs => findInterps cs
  | [] => []
termination_by s => s.length
decreasing_by
  · simp only [List.length_cons, List.length_drop]
    omega
  · simp only [List.length_cons]
    omega
  · simp only [List.length_cons]
    omega

/-- The anchored regex rewrite extracting the expression from one
interpolation: strip the leading dollar-brace and the trailing brace when the
string has exactly that shape with a nonempty brace-free interior; otherwise
leave the string unchanged. -/
def stripInterpDelims (s : JStr) : JStr :=
  match s with
  | '$' :: '{' :: rest =>
    let inner := rest.dropLast
    if rest.getLast? = some '}' ∧ inner.length ≠ 0 ∧ inner.all (fun c => c ≠ '}') then
      inner
    else s
  | _ => s

/-- JS `String.prototype.replace` with a plain (nonempty, pattern-free)
string argument: replace the first occurrence of `pat`, if any. -/
def jsReplaceFirst : JStr → JStr → JStr → JStr
  | [], _, _ => []
  | c :: cs, pat, repl =>
    if pat.isPrefixOf (c :: cs) then repl ++ (c :: cs).drop pat.length
    else c :: jsReplaceFirst cs pat repl

/-- The placeholder written into the catalog value for the `i`-th
interpolation: an opening brace, `val`, the decimal index, a closing brace. -/
def valTok (i : Nat) : JStr :=
  '{' :: ('v' :: 'a' :: 'l' :: (Nat.repr i).toList) ++ ['}']

/-- The `varInStr.forEach` of `handleTemplateString`: successively replace
the first occurrence of the `i`-th matched interpolation with its
placeholder, starting the numbering at 1. -/
def seqReplaceInterps : Nat → List JStr → JStr → JStr
  | _, [], s => s
  | i, m :: ms, s => seqReplaceInterps (i + 1) ms (jsReplaceFirst s m (valTok i))

/-- The `val1: expr1` pair list of `handleTemplateString`. -/
def kvPairOf (varInStr : List JStr) : List JStr :=
  varInStr.enum.map
    (fun p => ('v' :: 'a' :: 'l' :: (Nat.repr (p.1 + 1)).toList) ++ jsStr ": "
        ++ stripInterpDelims p.2)

/-- Join with the separator used by `kvPair.join(',\n')`. -/
def jsJoin (sep : JStr) : List JStr → JStr
  | [] => []
  | t :: ts => ts.foldl (fun acc s => acc ++ sep ++ s) t

/-- `handleTemplateString(text, val)`: returns
`(replaceVal, replaceText)` — without interpolations the pair
`(val, text)`; with interpolations the `I18N.template(val, { ... })` call
and the text with each matched interpolation sequentially replaced by its
placeholder. -/
def handleTemplateString (text val : JStr) : JStr × JStr :=
  let varInStr := findInterps text
  if varInStr.length = 0 then (val, text)
  else
    let kvPair := kvPairOf varInStr
    let replaceVal :=
      jsStr "I18N.template(" ++ val ++ jsStr ", " ++ ['{'] ++ [' ']
        ++ jsJoin (jsStr ",\n") kvPair ++ [' '] ++ ['}'] ++ [')']
    let replaceText := seqReplaceInterps 1 varInStr text
    (replaceVal, replaceText)

/-! ## replace.ts : context predicates and the rewriter -/

/-- `isTemplateString(code, start)`: the character immediately before the
span (`code.slice(start - 1, start)`) is a backtick. -/
def isTemplateString (code : JStr) (start : Nat) : Bool :=
  if start = 0 then false else jsCharAt code (start - 1) = some btk

/-- `isPropertyAssignment(code, start)`: the character immediately before the
span is an equals sign. -/
def isPropertyAssignment (code : JStr) (start : Nat) : Bool :=
  if start = 0 then false else jsCharAt code (start - 1) = some '='

/-- The scan of `isInVueInterpolation`: walk `pos` downward from
`start - 1`; remember the most recent double-closing-brace start seen
(`closePos`, overwritten on every hit), stop at the first double-opening
brace (`openPos`).  Both conditions require `pos > 0`. -/
def vueFindOpen (code : JStr) : Nat → Option Nat → Option (Nat × Option Nat)
  | 0, _ => none
  | pos + 1, closePos =>
    if jsCharAt code pos = some '{' ∧ jsCharAt code (pos + 1) = some '{' then
      some (pos, closePos)
    else if jsCharAt code pos = some '}' ∧ jsCharAt code (pos + 1) = some '}' then
      vueFindOpen code pos (some pos)
    else
      vueFindOpen code pos closePos

/-- `isInVueInterpolation(code, start)`. -/
def isInVueInterpolation (code : JStr) (start : Nat) : Bool :=
  match (if start = 0 then none else vueFindOpen code (start - 1) none) with
  | none => false
  | some (_, none) => true
  | some (openPos, some closePos) =>
    if openPos < closePos then
      decide (openPos < start ∧ start < closePos + 2)
    else true

/-- `generateReplaceValue`: wrapping of the reference by syntactic context. -/
def generateReplaceValue (val : JStr) (isHtmlFile isVueFile isPropAssign
    isTmplStr isInVueInterp : Bool) : JStr :=
  if isPropAssign then
    if isHtmlFile || isVueFile then ['{', '{'] ++ val ++ ['}', '}']
    else ['{'] ++ val ++ ['}']
  else if isTmplStr then val
  else if isInVueInterp && isVueFile then val
  else val

/-- `generateNonStringReplacement`: wrap a non-string span with double or
single braces and splice. -/
def generateNonStringReplacement (code : JStr) (start stop : Nat) (val : JStr)
    (isHtmlFile isVueFile : Bool) : JStr :=
  if isHtmlFile || isVueFile then
    code.take start ++ ['{', '{'] ++ val ++ ['}', '}'] ++ code.drop stop
  else
    code.take start ++ ['{'] ++ val ++ ['}'] ++ code.drop stop

/-- `code.lastIndexOf(pat, fromIdx)` : the largest occurrence position
`≤ fromIdx`. -/
def jsLastIndexOf (code pat : JStr) (fromIdx : Nat) : Option Nat :=
  ((List.range (fromIdx + 1)).filter
      (fun i => pat.isPrefixOf (code.drop i))).getLast?

/-- `code.indexOf(pat, fromIdx)` : the smallest occurrence position
`≥ fromIdx`. -/
def jsIndexOfFrom (code pat : JStr) (fromIdx : Nat) : Option Nat :=
  ((List.range (code.length + 1)).filter
      (fun i => fromIdx ≤ i ∧ pat.isPrefixOf (code.drop i))).head?

/-- `_.endsWith(filePath, suffix)` (lodash), on the character lists. -/
def jsEndsWith (s suffix : String) : Bool :=
  suffix.toList.isSuffixOf s.toList

/-- What `replaceAndUpdate` hands to `writeUpdatedFile`: the rewritten file
contents and the final catalog value. -/
structure ReplaceOutcome where
  newCode : JStr
  finalReplaceText : JStr
deriving DecidableEq, Repr

/-- `replaceAndUpdate(filePath, arg, val, ...)` up to the call to
`writeUpdatedFile`: compute the new file contents and the final catalog
value.  The file contents (`readFile(filePath)`) are passed in as `code`. -/
def replaceAndUpdate (filePath : String) (code : JStr) (arg : SpanRec)
    (val : JStr) : ReplaceOutcome :=
  let isHtmlFile := jsEndsWith filePath ".html"
  let isVueFile := jsEndsWith filePath ".vue"
  let start := arg.range.start
  let stop := arg.range.stop
  if arg.isString then
    let isPropertyAssignmentFlag := isPropertyAssignment code start
    let isTemplateStringFlag := isTemplateString code start
    let isInVueInterpolationFlag := isInVueInterpolation code start
    let finalReplaceVal := generateReplaceValue val isHtmlFile isVueFile
      isPropertyAssignmentFlag isTemplateStringFlag isInVueInterpolationFlag
    let st := if isTemplateStringFlag then handleTemplateString arg.text val
      else (finalReplaceVal, arg.text)
    let finalReplaceVal := st.1
    let finalReplaceText := st.2
    if isVueFile && isInVueInterpolationFlag then
      match jsLastIndexOf code ['{', '{'] start, jsIndexOfFrom code ['}', '}'] stop with
      | some openPos, some closePos =>
        if openPos ≤ start ∧ stop ≤ closePos + 2 then
          ⟨code.take (openPos + 2) ++ finalReplaceVal ++ code.drop closePos,
            finalReplaceText⟩
        else
          ⟨code.take start ++ finalReplaceVal ++ code.drop stop, finalReplaceText⟩
      | _, _ =>
        ⟨code.take start ++ finalReplaceVal ++ code.drop stop, finalReplaceText⟩
    else
      ⟨code.take start ++ finalReplaceVal ++ code.drop stop, finalReplaceText⟩
  else
    ⟨generateNonStringReplacement code start stop val isHtmlFile isVueFile,
      arg.text⟩

/-! ## replace.ts : effect order of writeUpdatedFile -/

/-- A persisted side effect of `writeUpdatedFile`. -/
inductive FsEvent where
  | langWrite (keyValue : JStr) (text : JStr)
  | srcWrite (filePath : String) (content : JStr)
deriving DecidableEq, Repr

/-- The disk commit performed by `updateLangFiles(keyValue, text, ...)`: a
catalog write, guarded by the key starting with the lookup-symbol segment. -/
def updateLangFilesTrace (keyValue text : JStr) : List FsEvent :=
  if (jsStr "I18N.").isPrefixOf keyValue then [FsEvent.langWrite keyValue text]
  else []

/-- The sequence of disk writes performed by one `writeUpdatedFile` call, in
program order: first, when `needWrite`, the catalog commit
(`updateLangFiles`), then the source-file write (`writeFile`). -/
def writeUpdatedFileTrace (filePath : String) (newCode val finalReplaceText : JStr)
    (needWrite : Bool) : List FsEvent :=
  (if needWrite then updateLangFilesTrace val finalReplaceText else [])
    ++ [FsEvent.srcWrite filePath newCode]

/-- Every catalog commit in the trace happens after some source-file write
already happened. -/
def langOnlyAfterSrc : Bool → List FsEvent → Bool
  | _, [] => true
  | _, FsEvent.srcWrite _ _ :: r => langOnlyAfterSrc true r
  | seenSrc, FsEvent.langWrite _ _ :: r => seenSrc && langOnlyAfterSrc seenSrc r

/-! ## replace.ts : import detection and injection -/

/-- The named bindings of a TypeScript import clause, as the parser reports
them (`ts.NamedImportBindings`): either a list of named import specifiers or
a namespace import. -/
inductive NamedBindings where
  | namedImports (elements : List String)
  | namespaceImport (name : String)
deriving DecidableEq, Repr

/-- A TypeScript import clause: the optional default-import name and the
optional named bindings.  The whole clause is `none` for a bare side-effect
import. -/
structure ImportClause where
  name : Option String
  namedBindings : Option NamedBindings
deriving DecidableEq, Repr

/-- `checkNamedBindings`: a named-import list containing `I18N`, or a
namespace import called `I18N`. -/
def checkNamedBindings : Option NamedBindings → Bool
  | some (NamedBindings.namedImports elements) => elements.any (fun e => e = "I18N")
  | some (NamedBindings.namespaceImport n) => n = "I18N"
  | none => false

/-- `checkImportClause`: a default import named `I18N`; otherwise, when no
default name is present, defer to the named bindings.  An absent clause
fails the lodash `_.get(importClause, 'kind')` test and yields `false`. -/
def checkImportClause : Option ImportClause → Bool
  | none => false
  | some ic =>
    match ic.name with
    | some n => n = "I18N"
    | none => checkNamedBindings ic.namedBindings

/-- `hasImportI18N`: fold `checkImportClause` over the import declarations
the parser found in the file (the parse of the file is external; its import
clauses are passed in). -/
def hasImportI18N (imports : List (Option ImportClause)) : Bool :=
  imports.foldl (fun acc ic => checkImportClause ic || acc) false

/-- JS `String.prototype.replace` with a global regex whose pattern is the
literal `pat` (nonempty): replace every non-overlapping occurrence, scanning
left to right. -/
def jsReplaceAll : JStr → JStr → JStr → JStr
  | [], _, _ => []
  | c :: cs, pat, repl =>
    if pat.length ≠ 0 ∧ pat.isPrefixOf (c :: cs) then
      repl ++ jsReplaceAll ((c :: cs).drop pat.length) pat repl
    else
      c :: jsReplaceAll cs pat repl
termination_by s => s.length
decreasing_by
  · rename_i h
    simp only [List.length_cons, List.length_drop]
    rcases pat with _ | ⟨p, ps⟩
    · simp at h
    · simp only [List.length_cons]
      omega
  · simp only [List.length_cons]
    omega

/-- The literal opening script tag matched by the global regex of
`addImportToVueFile`. -/
def scriptTag : JStr := jsStr "<script>"

/-- `addImportToVueFile(code, importStatement)`: insert the import statement
after a newline behind the matched tag — with the global flag, after every
occurrence of the literal opening script tag. -/
def addImportToVueFile (code importStatement : JStr) : JStr :=
  jsReplaceAll code scriptTag (scriptTag ++ ['\n'] ++ importStatement)

/-- `pat` occurs as a contiguous substring of `s`. -/
def hasSubstr : JStr → JStr → Bool
  | [], pat => pat.length = 0
  | c :: cs, pat => pat.isPrefixOf (c :: cs) || hasSubstr cs pat

/-- Number of non-overlapping occurrences of `pat` (nonempty) in `s`, found
scanning left to right. -/
def countOcc : JStr → JStr → Nat
  | [], _ => 0
  | c :: cs, pat =>
    if pat.length ≠ 0 ∧ pat.isPrefixOf (c :: cs) then
      1 + countOcc ((c :: cs).drop pat.length) pat
    else
      countOcc cs pat
termination_by s => s.length
decreasing_by
  · rename_i h
    simp only [List.length_cons, List.length_drop]
    rcases pat with _ | ⟨p, ps⟩
    · simp at h
    · simp only [List.length_cons]
      omega
  · simp only [List.length_cons]
    omega

/-! ## findChineseText.ts : the HTML extractor -/

/-- The value carried by an HTML ast node: a plain string (attribute value or
text) or a structured object exposing a `source` string (an interpolation). -/
inductive HtmlValue where
  | str (s : JStr)
  | obj (source : JStr)
deriving DecidableEq, Repr

/-- A span reported by the markup parser, by offsets into the source. -/
structure HtmlSpan where
  startOff : Nat
  endOff : Nat
deriving DecidableEq, Repr

/-- A node of the parsed markup tree (the external `parseTemplate` output):
an optional `value`, an optional `valueSpan`, the `sourceSpan`, children and
attributes. -/
inductive HtmlNode where
  | mk (value : Option HtmlValue) (valueSpan : Option HtmlSpan)
      (sourceSpan : HtmlSpan) (children : List HtmlNode)
      (attributes : List HtmlNode)
deriving Repr

/-- `node.valueSpan || node.sourceSpan`. -/
def htmlNodeSpan : HtmlNode → HtmlSpan
  | HtmlNode.mk _ (some vs) _ _ _ => vs
  | HtmlNode.mk _ none ss _ _ => ss

/-- `handleStringValue` of `findTextInHtml`: report the node's value at its
(absolute) span offsets; `isString` when the first character of the slice is
a quote. -/
def handleStringValue (code : JStr) (value : JStr) (startOffset endOffset : Nat) :
    SpanRec :=
  let nodeValue := jsSlice code startOffset endOffset
  let isString := nodeValue.head? = some '"' || nodeValue.head? = some '\''
  ⟨value, ⟨startOffset, endOffset⟩, isString⟩

/-- `nodeValue.indexOf(ch)` for a single character (`-1` never occurs at the
use site; an absent character is mapped to 0, which `indexOf` cannot
return for these inputs — see `handleObjectValue`). -/
def jsIndexOfChar (s : JStr) (ch : Char) : Nat :=
  (s.findIdx? (fun c => c = ch)).getD 0

/-- `handleObjectValue` of `findTextInHtml`: for one regex match `match`
(a single CJK character) of the interpolation source, report a record whose
range is computed from `nodeValue.indexOf(match)` — an offset **relative to
the value span**, not shifted by `startOffset`. -/
def handleObjectValue (code : JStr) (m : Char) (startOffset endOffset : Nat) :
    SpanRec :=
  let nodeValue := jsSlice code startOffset endOffset
  let start := jsIndexOfChar nodeValue m
  let stop := start + 1
  ⟨[m], ⟨start, stop⟩, false⟩

/-- All matches of the global CJK regex over a string: the list of matched
single characters, in order. -/
def chineseMatchesOf (s : JStr) : List Char :=
  s.filter (fun c => 0x4E00 ≤ c.toNat && c.toNat ≤ 0x9FFF)

/-- The body of `visit` for one node's own `value` (children and attributes
are handled by the recursive walk). -/
def htmlOwnMatches (code : JStr) : HtmlNode → List SpanRec
  | n@(HtmlNode.mk value _ _ _ _) =>
    let span := htmlNodeSpan n
    match value with
    | some (HtmlValue.str s) =>
      if hasChinese s then [handleStringValue code s span.startOff span.endOff]
      else []
    | some (HtmlValue.obj source) =>
      if hasChinese source then
        (chineseMatchesOf source).map
          (fun m => handleObjectValue code m span.startOff span.endOff)
      else []
    | none => []

mutual

/-- The recursive `visit` of `findTextInHtml`: the node's own value first,
then the children, then the attributes. -/
def htmlVisit (code : JStr) : HtmlNode → List SpanRec
  | n@(HtmlNode.mk _ _ _ children attributes) =>
    htmlOwnMatches code n ++ htmlVisitList code children
      ++ htmlVisitList code attributes

/-- Walk a list of nodes in order. -/
def htmlVisitList (code : JStr) : List HtmlNode → List SpanRec
  | [] => []
  | n :: ns => htmlVisit code n ++ htmlVisitList code ns

end

/-- `findTextInHtml(code)`: visit every root node of the parsed markup tree
(the parse itself is the external markup parser; its node tree is passed
in). -/
def findTextInHtml (code : JStr) (nodes : List HtmlNode) : List SpanRec :=
  htmlVisitList code nodes

/-- The span-record invariant stated by the spec: a well-formed range into
the original source whose slice contains a CJK character. -/
def rangeInvariant (code : JStr) (r : SpanRec) : Prop :=
  r.range.start < r.range.stop ∧ r.range.stop ≤ code.length ∧
    hasChinese (jsSlice code r.range.start r.range.stop) = true

/-! ## extract.ts : the per-file extraction pass -/

/-- One candidate file for the extraction pass, together with the outcome of
its dialect parse: the external parser either yields the file's span records
(`Except.ok`) or throws (`Except.error`, e.g. `babelParser.parse` on a
syntax error in a js file). -/
structure ExtractInput where
  file : String
  parsed : Except String (List SpanRec)

/-- A file work item of `findAllChineseText`: the file and its spans sorted
by descending `range.start`. -/
structure WorkItem where
  file : String
  texts : List SpanRec
deriving DecidableEq, Repr

/-- `findChineseText(code, file)` as seen from `findAllChineseText`: the
extraction result or the propagated parser exception. -/
def findChineseTextE (f : ExtractInput) : Except String (List SpanRec) :=
  f.parsed

/-- One step of the `filterFiles.reduce` of `findAllChineseText`: extract
the file (which may throw), sort its spans by descending position, and append
a work item when any Chinese was found. -/
def findAllChineseTextStep (pre : List WorkItem) (f : ExtractInput) :
    Except String (List WorkItem) := do
  let texts ← findChineseTextE f
  let sorted := sortTexts texts
  pure (if texts.length > 0 then pre ++ [WorkItem.mk f.file sorted] else pre)

/-- The `filterFiles.reduce` of `findAllChineseText`: the reduce carries no
try-catch, so a thrown parse error propagates and aborts the whole pass —
embedded as `foldlM` in the `Except` monad. -/
def findAllChineseText (files : List ExtractInput) :
    Except String (List WorkItem) :=
  files.foldlM findAllChineseTextStep []

/-! ## findChineseText.ts : vue-variant selection -/

/-- The outcome of the `kiwi.config.json` read that
`getVueVersionFromConfig` performs on every call: the file is absent, or
reading/parsing it threw, or it parsed to an object with an optional
`vueVersion` field (an empty string is JS-falsy and is modelled
separately). -/
inductive ConfigRead where
  | absent
  | unreadable
  | ok (vueVersion : Option String)
deriving DecidableEq, Repr

/-- `getVueVersionFromConfig()`: return `config.vueVersion || 'vue3'` when
the file exists and parses; fall through to `'vue3'` when it is absent or
anything throws. -/
def getVueVersionFromConfig : ConfigRead → String
  | ConfigRead.absent => "vue3"
  | ConfigRead.unreadable => "vue3"
  | ConfigRead.ok none => "vue3"
  | ConfigRead.ok (some v) => if v = "" then "vue3" else v

/-- The two component-file extractor variants. -/
inductive VueVariant where
  | vue2
  | vue3
deriving DecidableEq, Repr

/-- The dispatch of `findTextInVue(code)`: re-read the configuration (the
per-invocation read outcome is the explicit argument) and use the vue2
extractor exactly when the version is `'vue2'`, the vue3 extractor
otherwise. -/
def findTextInVueVariant (cfg : ConfigRead) : VueVariant :=
  if getVueVersionFromConfig cfg = "vue2" then VueVariant.vue2
  else VueVariant.vue3

/-! ## findChineseText.ts : filterNestedRanges -/

/-- Strict containment of ranges (here on `arrf` pairs `(start, end)`): the
container includes the contained range and differs from it on at least one
side. -/
def strictlyContainsPair (t s : Nat × Nat) : Prop :=
  t.1 ≤ s.1 ∧ s.2 ≤ t.2 ∧ (t.1 < s.1 ∨ s.2 < t.2)

instance (t s : Nat × Nat) : Decidable (strictlyContainsPair t s) := by
  unfold strictlyContainsPair; infer_instance

/-- `filterNestedRanges(matches)` of `findChineseText.ts`, on the `arrf`
fields (each push site sets `arrf` to the pair of range bounds): keep an item
unless some other item's pair strictly contains it. -/
def filterNestedRanges (ms : List (Nat × Nat)) : List (Nat × Nat) :=
  ms.filter (fun item =>
    ! ms.any (fun items =>
      (decide (items.1 < item.1) && decide (item.2 ≤ items.2)) ||
        (decide (items.1 ≤ item.1) && decide (item.2 < items.2)) ||
        (decide (items.1 < item.1) && decide (item.2 < items.2))))

/-- Strict containment of span ranges: same relation on `TRange`. -/
def strictlyContains (t s : TRange) : Prop :=
  t.start ≤ s.start ∧ s.stop ≤ t.stop ∧ (t.start < s.start ∨ s.stop < t.stop)

instance (t s : TRange) : Decidable (strictlyContains t s) := by
  unfold strictlyContains; infer_instance

/-! ## Specification-side formulations

These definitions follow the words of the specification (not the code) and
are compared with the embedded code in the refinement theorems below. -/

/-- Join a list of strings with a separator (the specification-side reading
of the batched submission: the fragments in list order, delimiter between
consecutive ones). -/
def jsIntercalate (sep : JStr) : List JStr → JStr
  | [] => []
  | [t] => t
  | t :: ts => t ++ sep ++ jsIntercalate sep ts

/-- Specification-side single-pass template rewriting: copy the text,
replacing the `i`-th well-formed interpolation (in left-to-right order,
counting from `i₀`) with its `valN` placeholder — "the original text with
each interpolation replaced by its placeholder". -/
def specReplaceInterps : Nat → JStr → JStr
  | _, [] => []
  | i, '$' :: '{' :: rest =>
    let inner := rest.takeWhile (fun c => c ≠ '}')
    let rem := rest.drop inner.length
    if inner.length ≠ 0 ∧ rem.head? = some '}' then
      valTok i ++ specReplaceInterps (i + 1) (rem.drop 1)
    else
      '$' :: specReplaceInterps i ('{' :: rest)
  | i, c :: cs => c :: specReplaceInterps i cs
termination_by _ s => s.length
decreasing_by
  · simp only [List.length_cons, List.length_drop]
    omega
  · simp only [List.length_cons]
    omega
  · simp only [List.length_cons]
    omega

/-- Specification-side extraction of the interpolation expressions, in
left-to-right order. -/
def specInterpExprs : JStr → List JStr
  | [] => []
  | '$' :: '{' :: rest =>
    let inner := rest.takeWhile (fun c => c ≠ '}')
    let rem := rest.drop inner.length
    if inner.length ≠ 0 ∧ rem.head? = some '}' then
      inner :: specInterpExprs (rem.drop 1)
    else
      specInterpExprs ('{' :: rest)
  | _ :: cs => specInterpExprs cs
termination_by s => s.length
decreasing_by
  · simp only [List.length_cons, List.length_drop]
    omega
  · simp only [List.length_cons]
    omega
  · simp only [List.length_cons]
    omega

/-- Every dollar sign in the text begins a well-formed interpolation (and the
interpolation expressions themselves are dollar-free): under this condition
the sequential first-occurrence replacement of the code coincides with the
specification's single-pass replacement. -/
def dollarsOk : JStr → Bool
  | [] => true
  | '$' :: '{' :: rest =>
    let inner := rest.takeWhile (fun c => c ≠ '}')
    let rem := rest.drop inner.length
    if inner.length ≠ 0 ∧ rem.head? = some '}' then
      inner.all (fun c => c ≠ '$') && dollarsOk (rem.drop 1)
    else
      false
  | '$' :: _ => false
  | _ :: cs => dollarsOk cs
termination_by s => s.length
decreasing_by
  · simp only [List.length_cons, List.length_drop]
    omega
  · simp only [List.length_cons]
    omega

/-- The replacement expression the specification prescribes for a template
literal with interpolation expressions `exprs`:
`I18N.template(ref, { val1: expr1, val2: expr2, … })`. -/
def templateCallOf (val : JStr) (exprs : List JStr) : JStr :=
  jsStr "I18N.template(" ++ val ++ jsStr ", " ++ ['{', ' ']
    ++ jsJoin (jsStr ",\n")
      (exprs.enum.map
        (fun p => ('v' :: 'a' :: 'l' :: (Nat.repr (p.1 + 1)).toList)
          ++ jsStr ": " ++ p.2))
    ++ [' ', '}', ')']

/-! ## Concrete instances used by the counterexamples -/

/-- Two spans of one file, given in forward source order: `你` at range
`[0, 1)` and `好` at range `[10, 11)`. -/
def c1DemoTexts : List SpanRec :=
  [⟨jsStr "你", ⟨0, 1⟩, true⟩, ⟨jsStr "好", ⟨10, 11⟩, true⟩]

/-- A script file whose template literal (backtick at index 10, content at
`[11, 24)`) contains a literal dollar directly before its first
interpolation and whose second interpolation expression is `val1`. -/
def c4Code : JStr :=
  jsStr "const m = " ++ [btk] ++ jsStr "中$${a}${val1}" ++ [btk] ++ jsStr ";"

/-- The span record for the template content of `c4Code`. -/
def c4Span : SpanRec := ⟨jsStr "中$${a}${val1}", ⟨11, 24⟩, true⟩

/-- An HTML file whose only interpolation sits at offset 15, far from the
file start. -/
def htmlDemoCode : JStr := jsStr "<div>x</div><p>\x7b\x7b你\x7d\x7d</p>"

/-- The markup parser's tree for `htmlDemoCode`: a `div` element with the
text child `x` (value span `[5, 6)`), and a `p` element whose bound-text
child carries the structured interpolation value with source text at source
span `[15, 20)` (interpolations expose no `valueSpan`, so `sourceSpan` is
used). -/
def htmlDemoAst : List HtmlNode :=
  [HtmlNode.mk none none ⟨0, 12⟩
      [HtmlNode.mk (some (HtmlValue.str (jsStr "x"))) (some ⟨5, 6⟩) ⟨5, 6⟩ [] []] [],
   HtmlNode.mk none none ⟨12, 24⟩
      [HtmlNode.mk (some (HtmlValue.obj (jsStr "\x7b\x7b你\x7d\x7d"))) none ⟨15, 20⟩ [] []] []]

/-- The record `findTextInHtml` reports for the interpolation of
`htmlDemoCode`. -/
def htmlDemoBadRec : SpanRec := ⟨['你'], ⟨2, 3⟩, false⟩

/-- A component file containing two occurrences of the literal opening
script tag: the real one, and one inside a string literal of the script
body. -/
def c5DemoVue : JStr :=
  jsStr "<template><p>确定</p></template>\n<script>\nconst s = \"<script>\";\n</script>\n"

/-- A configured import statement for the lookup symbol. -/
def c5ImportStmt : JStr := jsStr "import I18N from \"utils/I18N\";\n"

/-- Two files for one extraction pass: the first file's dialect parser
throws, the second file parses and contains Chinese. -/
def c8DemoFiles : List ExtractInput :=
  [⟨"bad.js", Except.error "SyntaxError"⟩,
   ⟨"good.js", Except.ok [⟨jsStr "你好", ⟨8, 12⟩, true⟩]⟩]

/-! ## C9 -/

/-- C9: the claim says a fragment with no Chinese character or Latin letter
defaults to the sentinel `中文符号`, making every prepared fragment
non-empty.  The code's `findText ? … : '中文符号'` tests an array, which is
always truthy, so the sentinel branch is dead: on the failing input `"123"`
the prepared fragment is the empty string, not the sentinel — the prepared
fragment is not always non-empty.  (A positive instance evaluating the
claimed keep/join/truncate shape is included.) -/
theorem claimC9 :
    getTransOriginText (jsStr "123") = [] ∧
    getTransOriginText (jsStr "123") ≠ jsStr "中文符号" ∧
    ¬ (∀ t : JStr, getTransOriginText t ≠ []) ∧
    getTransOriginText (jsStr "a-你好b!c的") = jsStr "a你好bc" := by
  refine ⟨?_, ?_, ?_, ?_⟩
  · simp [getTransOriginText, jsStr, matchTransRuns, jsTruthyArray, isTransKeep]
  · simp [getTransOriginText, jsStr, matchTransRuns, jsTruthyArray, isTransKeep]
  · intro h
    exact h (jsStr "123")
      (by simp [getTransOriginText, jsStr, matchTransRuns, jsTruthyArray, isTransKeep])
  · simp [getTransOriginText, jsStr, matchTransRuns, jsTruthyArray, isTransKeep]

/-! ## C10 -/

/-- C10: whenever the per-invocation read of `kiwi.config.json` finds the
file absent, the read or parse throws, or the parsed object lacks a (truthy)
`vueVersion` field, `findTextInVue` resolves the version to `vue3` and
dispatches to the Variant-B (vue3) extractor; the selection genuinely
depends on the value read in the current invocation (a `vue2` read picks
Variant A). -/
theorem claimC10 (cfg : ConfigRead)
    (h : cfg = ConfigRead.absent ∨ cfg = ConfigRead.unreadable ∨
      cfg = ConfigRead.ok none ∨ cfg = ConfigRead.ok (some "")) :
    getVueVersionFromConfig cfg = "vue3" ∧
    findTextInVueVariant cfg = VueVariant.vue3 ∧
    findTextInVueVariant (ConfigRead.ok (some "vue2")) = VueVariant.vue2 := by
  rcases h with h | h | h | h <;> subst h <;>
    exact ⟨by decide, by decide, by decide⟩

/-- Witness for C10 at the concrete input `absent`. -/
theorem claimC10_witness :
    getVueVersionFromConfig ConfigRead.absent = "vue3" ∧
    findTextInVueVariant ConfigRead.absent = VueVariant.vue3 ∧
    findTextInVueVariant (ConfigRead.ok (some "vue2")) = VueVariant.vue2 :=
  claimC10 ConfigRead.absent (Or.inl rfl)

/-! ## C7 -/

/-- C7 counterexample: on a span flagged `needWrite` with key
`I18N.common.queDing`, `writeUpdatedFile` emits the catalog commit *before*
the source-file write — the trace violates "every catalog commit happens
after the file's bytes were written". -/
theorem claimC7_counterexample :
    writeUpdatedFileTrace "app.ts" (jsStr "newCode") (jsStr "I18N.common.queDing")
        (jsStr "确定") true
      = [FsEvent.langWrite (jsStr "I18N.common.queDing") (jsStr "确定"),
         FsEvent.srcWrite "app.ts" (jsStr "newCode")] ∧
    langOnlyAfterSrc false
      (writeUpdatedFileTrace "app.ts" (jsStr "newCode") (jsStr "I18N.common.queDing")
        (jsStr "确定") true) = false := by
  constructor
  · decide
  · decide

/-- C7 amended: for every span flagged as requiring a catalog write (with an
`I18N.`-prefixed key), the catalog entry is committed immediately *before*
the file's rewritten bytes are written: the trace of one `writeUpdatedFile`
call is exactly the catalog commit followed by the source write. -/
theorem claimC7 (filePath : String) (newCode val finalReplaceText : JStr)
    (needWrite : Bool) (h1 : needWrite = true)
    (h2 : (jsStr "I18N.").isPrefixOf val = true) :
    writeUpdatedFileTrace filePath newCode val finalReplaceText needWrite
      = [FsEvent.langWrite val finalReplaceText,
         FsEvent.srcWrite filePath newCode] := by
  subst h1
  simp [writeUpdatedFileTrace, updateLangFilesTrace, h2]

/-- Witness for C7 at a concrete flagged span. -/
theorem claimC7_witness :
    writeUpdatedFileTrace "a.ts" (jsStr "c") (jsStr "I18N.x.y") (jsStr "文") true
      = [FsEvent.langWrite (jsStr "I18N.x.y") (jsStr "文"),
         FsEvent.srcWrite "a.ts" (jsStr "c")] :=
  claimC7 "a.ts" (jsStr "c") (jsStr "I18N.x.y") (jsStr "文") true rfl (by decide)

/-! ## C3 -/

/-- C3: the claim demands that every record of the extraction entry point
carry a range into the original source whose slice contains a CJK character.
On `htmlDemoCode` the HTML extractor's `handleObjectValue` computes the
range of the interpolation record from `nodeValue.indexOf(match)` without
adding the value span's `startOffset`: the reported range `[2, 3)` is
relative to the value span, and the slice of the original source at `[2, 3)`
is the letter `i` — no CJK character, violating the invariant (while the
rewriter consumes these ranges as absolute offsets). -/
theorem claimC3 :
    findTextInHtml htmlDemoCode htmlDemoAst = [htmlDemoBadRec] ∧
    ¬ rangeInvariant htmlDemoCode htmlDemoBadRec := by
  constructor
  · simp [findTextInHtml, htmlVisitList, htmlVisit, htmlOwnMatches, htmlNodeSpan,
      htmlDemoCode, htmlDemoAst, htmlDemoBadRec, jsStr, hasChinese,
      chineseMatchesOf, handleObjectValue, handleStringValue, jsSlice,
      jsIndexOfChar]
  · intro h
    have h3 := h.2.2
    revert h3
    decide

/-! ## C8 -/

/-- The reduce of `findAllChineseText` propagates the first parser exception,
whatever the accumulator: files after the failing one are never reached. -/
theorem findAllChineseText_error_aux (f : ExtractInput) (e : String)
    (he : f.parsed = Except.error e) (gs : List ExtractInput) :
    ∀ (fs : List ExtractInput) (init : List WorkItem),
      (∀ g ∈ fs, ∃ s, g.parsed = Except.ok s) →
      List.foldlM findAllChineseTextStep init (fs ++ f :: gs)
        = Except.error e := by
  intro fs
  induction fs with
  | nil =>
    intro init _
    simp only [List.nil_append, List.foldlM_cons]
    have hstep : findAllChineseTextStep init f = Except.error e := by
      simp [findAllChineseTextStep, findChineseTextE, he]
    rw [hstep]
    rfl
  | cons g rest ih =>
    intro init hok
    obtain ⟨s, hs⟩ := hok g (by simp)
    simp only [List.cons_append, List.foldlM_cons]
    have hstep : findAllChineseTextStep init g
        = Except.ok (if s.length > 0 then init ++ [WorkItem.mk g.file (sortTexts s)] else init) := by
      simp [findAllChineseTextStep, findChineseTextE, hs]
    rw [hstep]
    exact ih _ (fun g' hg' => hok g' (by simp [hg']))

/-- C8 counterexample: with a first js file whose parser throws and a second
file that parses and contains Chinese, the whole extraction pass aborts with
the parse error — there is no successful result containing the second file's
contribution, contradicting "only that file's contribution is skipped and
the run continues".  (The second file alone does produce its work item.) -/
theorem claimC8_counterexample :
    findAllChineseText c8DemoFiles = Except.error "SyntaxError" ∧
    (¬ ∃ items, findAllChineseText c8DemoFiles = Except.ok items ∧
      ∃ w ∈ items, w.file = "good.js") ∧
    findAllChineseText [⟨"good.js", Except.ok [⟨jsStr "你好", ⟨8, 12⟩, true⟩]⟩]
      = Except.ok [⟨"good.js", [⟨jsStr "你好", ⟨8, 12⟩, true⟩]⟩] := by
  refine ⟨by rfl, ?_, by rfl⟩
  rintro ⟨items, hitems, -⟩
  have h0 : findAllChineseText c8DemoFiles = Except.error "SyntaxError" := by rfl
  rw [h0] at hitems
  exact Except.noConfusion hitems

/-- C8 amended: a parser rejection does not merely skip the failing file —
the exception propagates out of the reduce and aborts the whole extraction
pass: whenever every file before `f` parses and `f`'s dialect parser throws
`e`, the pass returns the error `e`, and no later file contributes. -/
theorem claimC8 (fs gs : List ExtractInput) (f : ExtractInput) (e : String)
    (hok : ∀ g ∈ fs, ∃ s, g.parsed = Except.ok s)
    (he : f.parsed = Except.error e) :
    findAllChineseText (fs ++ f :: gs) = Except.error e :=
  findAllChineseText_error_aux f e he gs fs [] hok

/-- Witness for C8 at the concrete failing pass. -/
theorem claimC8_witness :
    findAllChineseText
      ([⟨"good.js", Except.ok [⟨jsStr "你好", ⟨8, 12⟩, true⟩]⟩]
        ++ ⟨"bad.js", Except.error "SyntaxError"⟩ :: [])
      = Except.error "SyntaxError" :=
  claimC8 [⟨"good.js", Except.ok [⟨jsStr "你好", ⟨8, 12⟩, true⟩]⟩] []
    ⟨"bad.js", Except.error "SyntaxError"⟩ "SyntaxError"
    (by intro g hg
        simp only [List.mem_singleton] at hg
        exact ⟨[⟨jsStr "你好", ⟨8, 12⟩, true⟩], by rw [hg]⟩)
    rfl

/-! ## C6 -/

/-- Inserting into a descending-sorted list permutes consing. -/
theorem insertDesc_perm (a : SpanRec) (l : List SpanRec) :
    List.Perm (insertDesc a l) (a :: l) := by
  induction l with
  | nil => rfl
  | cons b t ih =>
    simp only [insertDesc]
    split
    · rfl
    · exact (ih.cons b).trans (List.Perm.swap a b t)

/-- `sortTexts` permutes its input. -/
theorem sortTexts_perm (l : List SpanRec) : List.Perm (sortTexts l) l := by
  induction l with
  | nil => rfl
  | cons a t ih => exact (insertDesc_perm a (sortTexts t)).trans (ih.cons a)

/-- Inserting preserves descending sortedness. -/
theorem insertDesc_pairwise (a : SpanRec) (l : List SpanRec)
    (h : l.Pairwise (fun x y => y.range.start ≤ x.range.start)) :
    (insertDesc a l).Pairwise (fun x y => y.range.start ≤ x.range.start) := by
  induction l with
  | nil => simp [insertDesc]
  | cons b t ih =>
    simp only [insertDesc]
    rcases List.pairwise_cons.mp h with ⟨hb, ht⟩
    by_cases hab : byDescStart a b
    · simp only [hab, if_true]
      refine List.pairwise_cons.mpr ⟨?_, h⟩
      intro c hc
      rcases List.mem_cons.mp hc with rfl | hc
      · simpa [byDescStart] using hab
      · have h1 : b.range.start ≤ a.range.start := by simpa [byDescStart] using hab
        exact Nat.le_trans (hb c hc) h1
    · simp only [hab, if_false]
      refine List.pairwise_cons.mpr ⟨?_, ih ht⟩
      intro c hc
      rcases List.mem_cons.mp ((insertDesc_perm a t).mem_iff.mp hc) with rfl | hc
      · simp only [byDescStart, decide_eq_true_eq] at hab
        omega
      · exact hb c hc

/-- The output of `sortTexts` is sorted by descending `range.start`. -/
theorem sortTexts_sorted (l : List SpanRec) :
    (sortTexts l).Pairwise (fun x y => y.range.start ≤ x.range.start) := by
  induction l with
  | nil => simp [sortTexts]
  | cons a t ih => exact insertDesc_pairwise a (sortTexts t) ih

/-- `filterTargetStrs` selects a sublist. -/
theorem filterTargetStrs_sublist (l : List SpanRec) :
    List.Sublist (filterTargetStrs l) l := by
  induction l with
  | nil => simp [filterTargetStrs]
  | cons a t ih =>
    simp only [filterTargetStrs]
    split
    · exact ih.cons a
    · exact ih.cons₂ a

/-- On a descending-sorted list with pairwise-distinct starts,
`filterTargetStrs` keeps exactly the spans not strictly contained in any
other span of the list. -/
theorem filterTargetStrs_mem_sorted :
    ∀ (m : List SpanRec),
      m.Pairwise (fun x y => y.range.start ≤ x.range.start) →
      m.Pairwise (fun x y => x.range.start ≠ y.range.start) →
      ∀ s, s ∈ filterTargetStrs m ↔
        s ∈ m ∧ ¬ ∃ t ∈ m, strictlyContains t.range s.range := by
  intro m
  induction m with
  | nil => simp [filterTargetStrs]
  | cons a rest ih =>
    intro hs hd s
    rcases List.pairwise_cons.mp hs with ⟨hsa, hsrest⟩
    rcases List.pairwise_cons.mp hd with ⟨hda, hdrest⟩
    have hstrict : ∀ t ∈ rest, t.range.start < a.range.start := by
      intro t ht
      have h1 := hsa t ht
      have h2 := hda t ht
      omega
    simp only [filterTargetStrs]
    split
    case isTrue hdrop =>
      rcases List.any_eq_true.mp hdrop with ⟨t0, ht0, hle0⟩
      have hle : a.range.stop ≤ t0.range.stop := of_decide_eq_true hle0
      rw [ih hsrest hdrest s]
      constructor
      · rintro ⟨hmem, hnc⟩
        refine ⟨List.mem_cons_of_mem a hmem, ?_⟩
        rintro ⟨t, htm, hsc⟩
        rcases List.mem_cons.mp htm with rfl | htm
        · have hlt := hstrict s hmem
          rcases hsc with ⟨h1, _, _⟩
          omega
        · exact hnc ⟨t, htm, hsc⟩
      · rintro ⟨hmem, hnc⟩
        rcases List.mem_cons.mp hmem with rfl | hmem
        · exact absurd ⟨t0, List.mem_cons_of_mem s ht0,
            Nat.le_of_lt (hstrict t0 ht0), hle, Or.inl (hstrict t0 ht0)⟩ hnc
        · exact ⟨hmem, fun ⟨t, htm, hsc⟩ =>
            hnc ⟨t, List.mem_cons_of_mem a htm, hsc⟩⟩
    case isFalse hkeep =>
      constructor
      · intro hmem
        rcases List.mem_cons.mp hmem with rfl | hmem
        · refine ⟨List.mem_cons_self s rest, ?_⟩
          rintro ⟨t, htm, hsc⟩
          rcases List.mem_cons.mp htm with rfl | htm
          · rcases hsc with ⟨h1, h2, h3 | h3⟩ <;> omega
          · apply hkeep
            apply List.any_eq_true.mpr
            exact ⟨t, htm, decide_eq_true hsc.2.1⟩
        · have hih := (ih hsrest hdrest s).mp hmem
          refine ⟨List.mem_cons_of_mem a hih.1, ?_⟩
          rintro ⟨t, htm, hsc⟩
          rcases List.mem_cons.mp htm with rfl | htm
          · have hlt := hstrict s hih.1
            rcases hsc with ⟨h1, _, _⟩
            omega
          · exact hih.2 ⟨t, htm, hsc⟩
      · rintro ⟨hmem, hnc⟩
        rcases List.mem_cons.mp hmem with rfl | hmem
        · exact List.mem_cons_self s _
        · refine List.mem_cons_of_mem a ((ih hsrest hdrest s).mpr ⟨hmem, ?_⟩)
          rintro ⟨t, htm, hsc⟩
          exact hnc ⟨t, List.mem_cons_of_mem a htm, hsc⟩

/-- `filterNestedRanges` keeps exactly the pairs not strictly contained in
any other pair of the list (its three boolean disjuncts decide exactly
strict containment). -/
theorem filterNestedRanges_mem (ms : List (Nat × Nat)) (p : Nat × Nat) :
    p ∈ filterNestedRanges ms ↔ p ∈ ms ∧ ¬ ∃ q ∈ ms, strictlyContainsPair q p := by
  rw [filterNestedRanges, List.mem_filter]
  apply and_congr_right
  intro _
  rw [Bool.not_eq_true', List.any_eq_false]
  constructor
  · rintro h ⟨q, hq, hsc⟩
    have := h q hq
    simp only [Bool.or_eq_true, Bool.and_eq_true, decide_eq_true_eq] at this
    rcases hsc with ⟨h1, h2, h3⟩
    omega
  · intro h q hq
    by_contra hne
    simp only [Bool.not_eq_false, Bool.or_eq_true, Bool.and_eq_true,
      decide_eq_true_eq] at hne
    exact h ⟨q, hq, by unfold strictlyContainsPair; omega⟩

/-- C6 counterexample: two spans with identical ranges — neither is strictly
enclosed by any other span, yet normalization drops the first of them (the
drop test `strObj.range.end <= obj.range.end` fires on equal ranges), so
"dropped iff strictly enclosed" fails. -/
theorem claimC6_counterexample :
    normalizeSpans [⟨jsStr "甲", ⟨3, 7⟩, false⟩, ⟨jsStr "乙", ⟨3, 7⟩, false⟩]
      = [⟨jsStr "乙", ⟨3, 7⟩, false⟩] ∧
    (⟨jsStr "甲", ⟨3, 7⟩, false⟩ : SpanRec) ∉
      normalizeSpans [⟨jsStr "甲", ⟨3, 7⟩, false⟩, ⟨jsStr "乙", ⟨3, 7⟩, false⟩] ∧
    ¬ ∃ t ∈ [⟨jsStr "甲", ⟨3, 7⟩, false⟩, (⟨jsStr "乙", ⟨3, 7⟩, false⟩ : SpanRec)],
        strictlyContains t.range (⟨3, 7⟩ : TRange) := by
  decide

/-- C6 amended: provided the spans of the list have pairwise-distinct
`range.start` values, normalization (descending sort followed by the nested
filter) keeps exactly the spans not strictly enclosed by any other span and
orders the survivors by descending `range.start`; moreover
`filterNestedRanges` keeps exactly the non-strictly-enclosed pairs,
unconditionally (with coincident spans, a span whose range is equal to — or
shares its start with and ends no later than — a later-sorted span is also
dropped by the pipeline filter, as the counterexample shows). -/
theorem claimC6 :
    (∀ (l : List SpanRec),
      l.Pairwise (fun x y => x.range.start ≠ y.range.start) →
      (∀ s, s ∈ normalizeSpans l ↔
        s ∈ l ∧ ¬ ∃ t ∈ l, strictlyContains t.range s.range) ∧
      (normalizeSpans l).Pairwise (fun x y => y.range.start ≤ x.range.start)) ∧
    (∀ (ms : List (Nat × Nat)) (p : Nat × Nat),
      p ∈ filterNestedRanges ms ↔ p ∈ ms ∧ ¬ ∃ q ∈ ms, strictlyContainsPair q p) := by
  constructor
  · intro l hd
    have hperm := sortTexts_perm l
    have hd' : (sortTexts l).Pairwise (fun x y => x.range.start ≠ y.range.start) :=
      (hperm.pairwise_iff (fun h => Ne.symm h)).mpr hd
    constructor
    · intro s
      rw [normalizeSpans, filterTargetStrs_mem_sorted (sortTexts l) (sortTexts_sorted l) hd' s,
        hperm.mem_iff]
      apply and_congr_right
      intro _
      constructor
      · rintro h ⟨t, ht, hsc⟩
        exact h ⟨t, hperm.mem_iff.mpr ht, hsc⟩
      · rintro h ⟨t, ht, hsc⟩
        exact h ⟨t, hperm.mem_iff.mp ht, hsc⟩
    · exact (sortTexts_sorted l).sublist (filterTargetStrs_sublist (sortTexts l))
  · exact filterNestedRanges_mem

/-- Witness for C6 at a concrete two-span list with distinct starts. -/
theorem claimC6_witness :
    (normalizeSpans c1DemoTexts).Pairwise
      (fun x y => y.range.start ≤ x.range.start) :=
  (claimC6.1 c1DemoTexts (by decide)).2

/-! ## C1 -/

/-- The delimiter fold accumulates the fragments in list order. -/
theorem foldl_delim_aux (d : JStr) (ts : List SpanRec) :
    ∀ acc : JStr, ts.foldl (fun prev curr => prev ++ d ++ getTransOriginText curr.text) acc
      = acc ++ (ts.map (fun s => d ++ getTransOriginText s.text)).flatten := by
  induction ts with
  | nil => intro acc; simp
  | cons t ts ih =>
    intro acc
    simp only [List.foldl_cons]
    rw [ih]
    simp [List.append_assoc]

/-- Unfolding of the specification-side join. -/
theorem jsIntercalate_cons (d x : JStr) (xs : List JStr) :
    jsIntercalate d (x :: xs) = x ++ (xs.map (fun s => d ++ s)).flatten := by
  induction xs generalizing x with
  | nil => simp [jsIntercalate]
  | cons y ys ih =>
    simp only [jsIntercalate, List.map_cons, List.flatten_cons]
    rw [ih y]
    simp [List.append_assoc]

/-- The batched submission equals the fragments of `targetStrs`, in list
order, joined by the delimiter. -/
theorem translateOriginTexts_eq (d : JStr) (l : List SpanRec) :
    translateOriginTexts d l
      = jsIntercalate d (l.map (fun s => getTransOriginText s.text)) := by
  cases l with
  | nil => rfl
  | cons t ts =>
    simp only [translateOriginTexts, List.map_cons, jsIntercalate_cons,
      foldl_delim_aux]
    simp [Function.comp_def]

/-- The per-span submission equals the fragments of `targetStrs`, in list
order. -/
theorem translatePromises_eq (l : List SpanRec) :
    translatePromises l = l.map (fun s => getTransOriginText s.text) := by
  have aux : ∀ (ts : List SpanRec) (acc : List JStr),
      ts.foldl (fun prev curr => prev ++ [getTransOriginText curr.text]) acc
        = acc ++ ts.map (fun s => getTransOriginText s.text) := by
    intro ts
    induction ts with
    | nil => intro acc; simp
    | cons t ts ih => intro acc; simp [ih]
  simpa using aux l []

/-- Key assignment pairs the `i`-th produced item with the `i`-th span of
`targetStrs` (and hence with `translateTexts[i]`). -/
theorem getReplaceableStrsGo_targets (cc : String → String) (sugg : List String)
    (pfx : Option String) (trans : List String) :
    ∀ (tgt : List SpanRec) (lang : LangObj) (vm : List (JStr × String)) (i : Nat)
      (items : List ReplaceStrItem),
      getReplaceableStrsGo cc sugg pfx trans lang vm i tgt = some items →
      items.map (fun it => it.target) = tgt := by
  intro tgt
  induction tgt with
  | nil =>
    intro lang vm i items h
    simp only [getReplaceableStrsGo] at h
    cases h
    rfl
  | cons curr rest ih =>
    intro lang vm i items h
    simp only [getReplaceableStrsGo] at h
    cases hvm : vmLookup vm curr.text with
    | some memo =>
      simp only [hvm] at h
      cases hrec : getReplaceableStrsGo cc sugg pfx trans lang vm (i + 1) rest with
      | none => simp only [hrec] at h; cases h
      | some tail =>
        simp only [hrec, Option.some.injEq] at h
        subst h
        simp [ih lang vm (i + 1) tail hrec]
    | none =>
      simp only [hvm] at h
      cases hkey : (findMatchKey lang curr.text).map (fun k => replaceHyphens k) with
      | some k =>
        simp only [hkey] at h
        cases hrec : getReplaceableStrsGo cc sugg pfx trans lang
            ((curr.text, k) :: vm) (i + 1) rest with
        | none => simp only [hrec] at h; cases h
        | some tail =>
          simp only [hrec, Option.some.injEq] at h
          subst h
          simp [ih _ _ (i + 1) tail hrec]
      | none =>
        simp only [hkey] at h
        cases hdk : deduplicateKey lang
            (composeTransKey sugg pfx (jsTransText cc trans i)) curr.text with
        | none => simp only [hdk] at h; cases h
        | some fk =>
          simp only [hdk] at h
          cases hrec : getReplaceableStrsGo cc sugg pfx trans
              (langInsert lang fk curr.text) ((curr.text, fk) :: vm) (i + 1) rest with
          | none => simp only [hrec] at h; cases h
          | some tail =>
            simp only [hrec, Option.some.injEq] at h
            subst h
            simp [ih _ _ (i + 1) tail hrec]

/-- C1 counterexample: for a file whose spans are `你` at start 0 and `好`
at start 10, the fragments are submitted to the translator as
`[好, 你]` — descending source order, not the forward (ascending
`range.start`) order asserted by the claim, for both the batched and the
per-span providers; the processed list is not ascending by start. -/
theorem claimC1_counterexample :
    translatePromises (filterTargetStrs (sortTexts c1DemoTexts))
      = [jsStr "好", jsStr "你"] ∧
    translateOriginTexts (jsStr "$") (filterTargetStrs (sortTexts c1DemoTexts))
      = jsStr "好$你" ∧
    c1DemoTexts.map (fun s => getTransOriginText s.text)
      = [jsStr "你", jsStr "好"] ∧
    translatePromises (filterTargetStrs (sortTexts c1DemoTexts))
      ≠ c1DemoTexts.map (fun s => getTransOriginText s.text) ∧
    ¬ (filterTargetStrs (sortTexts c1DemoTexts)).Pairwise
        (fun a b => a.range.start ≤ b.range.start) := by
  have h1 : filterTargetStrs (sortTexts c1DemoTexts)
      = [⟨jsStr "好", ⟨10, 11⟩, true⟩, ⟨jsStr "你", ⟨0, 1⟩, true⟩] := by decide
  have h2 : getTransOriginText (jsStr "你") = jsStr "你" := by
    simp [getTransOriginText, jsStr, matchTransRuns, jsTruthyArray, isTransKeep]
  have h3 : getTransOriginText (jsStr "好") = jsStr "好" := by
    simp [getTransOriginText, jsStr, matchTransRuns, jsTruthyArray, isTransKeep]
  refine ⟨?_, ?_, ?_, ?_, ?_⟩
  · rw [h1]
    simp [translatePromises, h2, h3]
  · rw [h1]
    simp only [translateOriginTexts, List.foldl_cons, List.foldl_nil]
    rw [h2, h3]
    decide
  · simp [c1DemoTexts, h2, h3]
  · rw [h1]
    simp [translatePromises, c1DemoTexts, h2, h3]
    decide
  · rw [h1]
    intro hp
    have := (List.pairwise_cons.mp hp).1 ⟨jsStr "你", ⟨0, 1⟩, true⟩ (by simp)
    simp at this

/-- C1 amended: within one file the spans are processed in descending
`range.start` order (the same reverse-position order in which the edits are
applied); the literal fragments are submitted to the translator in that same
descending order (batched with a delimiter or one call per span), and the
translator's `i`-th output is paired with the `i`-th span of that
descending list by the key-assignment step. -/
theorem claimC1 :
    (∀ texts : List SpanRec,
      (filterTargetStrs (sortTexts texts)).Pairwise
        (fun a b => b.range.start ≤ a.range.start)) ∧
    (∀ (d : JStr) (tgt : List SpanRec),
      translateOriginTexts d tgt
        = jsIntercalate d (tgt.map (fun s => getTransOriginText s.text)) ∧
      translatePromises tgt = tgt.map (fun s => getTransOriginText s.text)) ∧
    (∀ (camelCase : String → String) (lang : LangObj) (sugg : List String)
        (pfx : Option String) (trans : List String) (tgt : List SpanRec)
        (items : List ReplaceStrItem),
      getReplaceableStrs camelCase lang sugg pfx trans tgt = some items →
      items.map (fun it => it.target) = tgt) := by
  refine ⟨?_, ?_, ?_⟩
  · intro texts
    exact (sortTexts_sorted texts).sublist (filterTargetStrs_sublist _)
  · intro d tgt
    exact ⟨translateOriginTexts_eq d tgt, translatePromises_eq tgt⟩
  · intro cc lang sugg pfx trans tgt items h
    exact getReplaceableStrsGo_targets cc sugg pfx trans tgt lang [] 0 items h

/-- Witness for C1 at a concrete two-span file. -/
theorem claimC1_witness :
    ([⟨⟨jsStr "好", ⟨10, 11⟩, true⟩, "comp.haoA", true⟩,
      ⟨⟨jsStr "你", ⟨0, 1⟩, true⟩, "comp.niB", true⟩] : List ReplaceStrItem).map
        (fun it => it.target)
      = [⟨jsStr "好", ⟨10, 11⟩, true⟩, ⟨jsStr "你", ⟨0, 1⟩, true⟩] :=
  claimC1.2.2 id [] ["comp"] none ["haoA", "niB"]
    [⟨jsStr "好", ⟨10, 11⟩, true⟩, ⟨jsStr "你", ⟨0, 1⟩, true⟩]
    [⟨⟨jsStr "好", ⟨10, 11⟩, true⟩, "comp.haoA", true⟩,
     ⟨⟨jsStr "你", ⟨0, 1⟩, true⟩, "comp.niB", true⟩] (by decide)

/-! ## C2 -/

/-- Characterization of the collision loop: a result `occ` means the
condition held at every count from the start up to (excluding) `occ` and
fails at `occ`. -/
theorem dedupGo_spec (obj : LangObj) (tk : String) (tx : JStr) :
    ∀ (fuel occ0 occ : Nat), dedupGo obj tk tx fuel occ0 = some occ →
      occ0 ≤ occ ∧ dedupCond obj tk tx occ = false ∧
      ∀ j, occ0 ≤ j → j < occ → dedupCond obj tk tx j = true := by
  intro fuel
  induction fuel with
  | zero =>
    intro occ0 occ h
    simp [dedupGo] at h
  | succ fuel ih =>
    intro occ0 occ h
    simp only [dedupGo] at h
    by_cases hc : dedupCond obj tk tx occ0
    · rw [if_pos hc] at h
      obtain ⟨h1, h2, h3⟩ := ih (occ0 + 1) occ h
      refine ⟨by omega, h2, fun j hj1 hj2 => ?_⟩
      rcases Nat.eq_or_lt_of_le hj1 with rfl | hlt
      · exact hc
      · exact h3 j hlt hj2
    · rw [if_neg hc] at h
      cases h
      exact ⟨Nat.le_refl _, by simpa using hc,
        fun j hj1 hj2 => absurd (Nat.lt_of_le_of_lt hj1 hj2) (Nat.lt_irrefl _)⟩

/-- When no key of the catalog maps to `tx`, no lookup by key can return
`tx`. -/
theorem findMatchValue_ne_of_nokey (obj : LangObj) (tx : JStr)
    (h : findMatchKey obj tx = none) (k : String) :
    findMatchValue obj k ≠ some tx := by
  intro hv
  rw [findMatchKey, Option.map_eq_none'] at h
  rw [findMatchValue, Option.map_eq_some'] at hv
  obtain ⟨p, hp, hpv⟩ := hv
  have hmem := List.mem_of_find?_eq_some hp
  rw [List.find?_eq_none] at h
  exact h p hmem (by simp [hpv])

/-- A key the catalog does not contain differs from every stored key. -/
theorem keysIncludes_false_forall (obj : LangObj) (k : String)
    (h : keysIncludes obj k = false) : ∀ p ∈ obj, p.1 ≠ k := by
  intro p hp
  rw [keysIncludes, List.any_eq_false] at h
  have := h p hp
  simpa using this

/-- Lookup of an absent key yields nothing. -/
theorem findMatchValue_none_of_not_includes (obj : LangObj) (k : String)
    (h : keysIncludes obj k = false) : findMatchValue obj k = none := by
  rw [findMatchValue, Option.map_eq_none', List.find?_eq_none]
  intro p hp
  simpa using keysIncludes_false_forall obj k h p hp

/-- Writing a fresh key appends it: the new key reads back its value and
every other key's value is unchanged. -/
theorem langInsert_fresh (obj : LangObj) (k : String) (v : JStr)
    (h : keysIncludes obj k = false) :
    langInsert obj k v = obj ++ [(k, v)] ∧
    findMatchValue (langInsert obj k v) k = some v ∧
    ∀ key, key ≠ k →
      findMatchValue (langInsert obj k v) key = findMatchValue obj key := by
  have heq : langInsert obj k v = obj ++ [(k, v)] := by
    rw [langInsert, h]
    simp
  refine ⟨heq, ?_, ?_⟩
  · have h1 : List.find? (fun p => p.1 = k) obj = none := by
      rw [List.find?_eq_none]
      intro p hp
      simpa using keysIncludes_false_forall obj k h p hp
    rw [heq, findMatchValue, List.find?_append, h1]
    simp [List.find?]
  · intro key hne
    rw [heq, findMatchValue, List.find?_append]
    have h2 : List.find? (fun p => p.1 = key) [(k, v)] = none := by
      simp [List.find?, Ne.symm hne]
    rw [h2]
    cases hf : List.find? (fun p => p.1 = key) obj <;> simp [findMatchValue, hf]

/-- Appending the empty suffix is the identity. -/
theorem stringAppendEmpty (s : String) : s ++ "" = s := by
  simp

/-- C2: for a literal whose text has no existing key, the collision loop
starts at `occurTime = 1` and increments while (a) the catalog value at the
candidate key differs from the text and (b) the catalog contains
`base ++ suffix` (`suffix` empty at 1, the decimal count from 2 on); on exit
with `occurTime ≥ 2` the final key is the base followed by the decimal
count.  Every lower candidate was occupied by a different value, the final
key is absent from the catalog, and writing it maps no existing key to a new
value — no key ever maps to two distinct values. -/
theorem claimC2 (obj : LangObj) (transKey : String) (text : JStr) (k : String)
    (hnokey : findMatchKey obj text = none)
    (hres : deduplicateKey obj transKey text = some k) :
    ∃ occurTime,
      1 ≤ occurTime ∧
      dedupGo obj transKey text (obj.length + 1) 1 = some occurTime ∧
      k = transKey ++ occSfx occurTime ∧
      (2 ≤ occurTime → k = transKey ++ Nat.repr occurTime) ∧
      (occurTime = 1 → k = transKey) ∧
      (∀ j, 1 ≤ j → j < occurTime →
        keysIncludes obj (transKey ++ occSfx j) = true ∧
        findMatchValue obj (transKey ++ occSfx j) ≠ some text) ∧
      keysIncludes obj k = false ∧
      findMatchValue obj k = none ∧
      findMatchValue (langInsert obj k text) k = some text ∧
      (∀ key, key ≠ k →
        findMatchValue (langInsert obj k text) key = findMatchValue obj key) := by
  rw [deduplicateKey] at hres
  cases hgo : dedupGo obj transKey text (obj.length + 1) 1 with
  | none => rw [hgo] at hres; cases hres
  | some occ =>
    rw [hgo, Option.some.injEq] at hres
    obtain ⟨h1, hcondF, hcondT⟩ := dedupGo_spec obj transKey text (obj.length + 1) 1 occ hgo
    have hA : findMatchValue obj transKey ≠ some text :=
      findMatchValue_ne_of_nokey obj text hnokey transKey
    have hA' : decide (findMatchValue obj transKey ≠ some text) = true :=
      decide_eq_true hA
    have hkeq : k = transKey ++ occSfx occ := by
      rw [← hres, occSfx]
      by_cases h2 : 2 ≤ occ
      · rw [if_pos h2, if_pos h2]
      · rw [if_neg h2, if_neg h2, stringAppendEmpty]
    have hkeysF : keysIncludes obj (transKey ++ occSfx occ) = false := by
      rw [dedupCond, hA'] at hcondF
      simpa using hcondF
    have hkF : keysIncludes obj k = false := by rw [hkeq]; exact hkeysF
    obtain ⟨-, hins1, hins2⟩ := langInsert_fresh obj k text hkF
    refine ⟨occ, h1, rfl, hkeq, ?_, ?_, ?_, hkF,
      findMatchValue_none_of_not_includes obj k hkF, hins1, hins2⟩
    · intro h2
      rw [hkeq, occSfx, if_pos h2]
    · intro hocc1
      rw [hkeq, hocc1, occSfx]
      norm_num
    · intro j hj1 hj2
      have hcj := hcondT j hj1 hj2
      rw [dedupCond, hA'] at hcj
      simp only [Bool.true_and] at hcj
      exact ⟨hcj, findMatchValue_ne_of_nokey obj text hnokey _⟩

/-- Witness for C2: catalog `{a.b ↦ x}`, base key `a.b`, text `y` — the
loop exits at 2 and the final key is `a.b2`. -/
theorem claimC2_witness :
    ∃ occurTime,
      1 ≤ occurTime ∧
      dedupGo [("a.b", jsStr "x")] "a.b" (jsStr "y") 2 1 = some occurTime ∧
      "a.b2" = "a.b" ++ occSfx occurTime ∧
      (2 ≤ occurTime → "a.b2" = "a.b" ++ Nat.repr occurTime) ∧
      (occurTime = 1 → "a.b2" = "a.b") ∧
      (∀ j, 1 ≤ j → j < occurTime →
        keysIncludes [("a.b", jsStr "x")] ("a.b" ++ occSfx j) = true ∧
        findMatchValue [("a.b", jsStr "x")] ("a.b" ++ occSfx j) ≠ some (jsStr "y")) ∧
      keysIncludes [("a.b", jsStr "x")] "a.b2" = false ∧
      findMatchValue [("a.b", jsStr "x")] "a.b2" = none ∧
      findMatchValue (langInsert [("a.b", jsStr "x")] "a.b2" (jsStr "y")) "a.b2"
        = some (jsStr "y") ∧
      (∀ key, key ≠ "a.b2" →
        findMatchValue (langInsert [("a.b", jsStr "x")] "a.b2" (jsStr "y")) key
          = findMatchValue [("a.b", jsStr "x")] key) :=
  claimC2 [("a.b", jsStr "x")] "a.b" (jsStr "y") "a.b2" (by decide) (by decide)

/-! ## C5 -/

/-- A global literal replace leaves a string without occurrences unchanged. -/
theorem jsReplaceAll_no_occ (pat repl : JStr) :
    ∀ s : JStr, hasSubstr s pat = false → jsReplaceAll s pat repl = s := by
  intro s
  induction s with
  | nil => intro _; simp [jsReplaceAll]
  | cons c cs ih =>
    intro h
    rw [hasSubstr, Bool.or_eq_false_iff] at h
    rw [jsReplaceAll, if_neg, ih h.2]
    rintro ⟨-, hpre⟩
    rw [h.1] at hpre
    cases hpre

/-- When the pattern's first occurrence starts exactly at position
`a.length`, the global replace rewrites that occurrence in place and
continues in the remainder. -/
theorem jsReplaceAll_split (pat repl b : JStr) (hp : pat.length ≠ 0) :
    ∀ a : JStr,
      (∀ i, i < a.length → pat.isPrefixOf ((a ++ pat ++ b).drop i) = false) →
      jsReplaceAll (a ++ pat ++ b) pat repl = a ++ repl ++ jsReplaceAll b pat repl := by
  intro a
  induction a with
  | nil =>
    intro _
    simp only [List.nil_append]
    have hpre : pat.isPrefixOf (pat ++ b) = true := by
      rw [List.isPrefixOf_iff_prefix]
      exact List.prefix_append pat b
    cases pat with
    | nil => simp at hp
    | cons p ps =>
      rw [List.cons_append, jsReplaceAll, if_pos ⟨hp, hpre⟩]
      congr 1
      rw [← List.cons_append, List.drop_left]
  | cons c cs ih =>
    intro hno
    have h0 : pat.isPrefixOf (c :: (cs ++ pat ++ b)) = false := by
      have := hno 0 (by simp)
      simpa using this
    have hno2 : ∀ i, i < cs.length →
        pat.isPrefixOf ((cs ++ pat ++ b).drop i) = false := by
      intro i hi
      have := hno (i + 1) (by simp only [List.length_cons]; omega)
      simpa using this
    simp only [List.cons_append]
    rw [jsReplaceAll, if_neg, ih hno2]
    rintro ⟨-, hpre⟩
    rw [h0] at hpre
    cases hpre

set_option maxHeartbeats 1000000 in
/-- C5 counterexample: a component file containing the literal opening
script tag twice (once real, once inside a string of the script body) and no
prior import: the global-regex injection of `addImportToVueFile` inserts the
configured `I18N` import statement after *both* occurrences, so the
rewritten file contains two imports of `I18N`, not exactly one. -/
theorem claimC5_counterexample :
    countOcc c5DemoVue scriptTag = 2 ∧
    countOcc c5DemoVue (jsStr "import I18N") = 0 ∧
    countOcc (addImportToVueFile c5DemoVue c5ImportStmt) (jsStr "import I18N") = 2 := by
  refine ⟨?_, ?_, ?_⟩
  · simp [countOcc, c5DemoVue, scriptTag, jsStr, List.isPrefixOf]
  · simp [countOcc, c5DemoVue, jsStr, List.isPrefixOf]
  · simp [countOcc, addImportToVueFile, jsReplaceAll, c5DemoVue, c5ImportStmt,
      scriptTag, jsStr, List.isPrefixOf]

/-- C5 amended: presence of the import is decided by parsing: an import
declaration that defaults to, names, or namespace-imports `I18N` is
accepted (and a clause defaulting to another name only is not, nor is a
side-effect import); the injected import is inserted after *every*
occurrence of the literal opening script tag, so when the file contains
exactly one such occurrence (and no pre-existing import), the rewritten file
contains exactly one injected import, placed immediately after the opening
script tag. -/
theorem claimC5 (a b importStatement : JStr)
    (h1 : ∀ i, i < a.length →
      scriptTag.isPrefixOf ((a ++ scriptTag ++ b).drop i) = false)
    (h2 : hasSubstr b scriptTag = false) :
    addImportToVueFile (a ++ scriptTag ++ b) importStatement
      = a ++ scriptTag ++ ['\n'] ++ importStatement ++ b ∧
    checkImportClause (some ⟨some "I18N", none⟩) = true ∧
    checkImportClause (some ⟨none, some (NamedBindings.namedImports ["App", "I18N"])⟩) = true ∧
    checkImportClause (some ⟨none, some (NamedBindings.namespaceImport "I18N")⟩) = true ∧
    checkImportClause (some ⟨some "App", none⟩) = false ∧
    checkImportClause none = false ∧
    hasImportI18N [] = false := by
  refine ⟨?_, by decide, by decide, by decide, by decide, by decide, by decide⟩
  rw [addImportToVueFile, jsReplaceAll_split scriptTag _ b (by decide) a h1,
    jsReplaceAll_no_occ _ _ b h2]
  simp [List.append_assoc]

/-- Witness for C5 at a concrete single-script component file. -/
theorem claimC5_witness :
    addImportToVueFile
        (jsStr "<template><p>你好</p></template>\n" ++ scriptTag
          ++ jsStr "\nlet x = 1\n</script>")
        c5ImportStmt
      = jsStr "<template><p>你好</p></template>\n" ++ scriptTag ++ ['\n']
        ++ c5ImportStmt ++ jsStr "\nlet x = 1\n</script>" :=
  (claimC5 (jsStr "<template><p>你好</p></template>\n")
    (jsStr "\nlet x = 1\n</script>") c5ImportStmt
    (by decide)
    (by simp [hasSubstr, jsStr, scriptTag, List.isPrefixOf])).1

/-! ## C4 -/

/-- Decimal digit characters are never a dollar sign. -/
theorem digitChar_ne_dollar (k : Nat) : Nat.digitChar k ≠ '$' := by
  rcases Nat.lt_or_ge k 16 with hk | hk
  · have hsmall : ∀ m : Nat, m < 16 → Nat.digitChar m ≠ '$' := by decide
    exact hsmall k hk
  · unfold Nat.digitChar
    simp only [show k ≠ 0 by omega, show k ≠ 1 by omega, show k ≠ 2 by omega,
      show k ≠ 3 by omega, show k ≠ 4 by omega, show k ≠ 5 by omega,
      show k ≠ 6 by omega, show k ≠ 7 by omega, show k ≠ 8 by omega,
      show k ≠ 9 by omega, show k ≠ 10 by omega, show k ≠ 11 by omega,
      show k ≠ 12 by omega, show k ≠ 13 by omega, show k ≠ 14 by omega,
      show k ≠ 15 by omega, if_false, ite_false]
    decide

/-- The digit-string builder only ever emits digit characters (here: never
a dollar sign). -/
theorem toDigitsCore_ne_dollar (b : Nat) :
    ∀ (fuel n : Nat) (ds : List Char), (∀ c ∈ ds, c ≠ '$') →
      ∀ c ∈ Nat.toDigitsCore b fuel n ds, c ≠ '$' := by
  intro fuel
  induction fuel with
  | zero => intro n ds h; simpa [Nat.toDigitsCore] using h
  | succ fuel ih =>
    intro n ds h c hc
    simp only [Nat.toDigitsCore] at hc
    split at hc
    · rcases List.mem_cons.mp hc with rfl | hc
      · exact digitChar_ne_dollar _
      · exact h c hc
    · refine ih _ _ ?_ c hc
      intro d hd
      rcases List.mem_cons.mp hd with rfl | hd
      · exact digitChar_ne_dollar _
      · exact h d hd

/-- The decimal representation of a natural number contains no dollar
sign. -/
theorem repr_toList_ne_dollar (n : Nat) : ∀ c ∈ (Nat.repr n).toList, c ≠ '$' := by
  intro c hc
  have h0 : (Nat.repr n).toList = Nat.toDigits 10 n := rfl
  rw [h0, Nat.toDigits] at hc
  exact toDigitsCore_ne_dollar 10 (n + 1) n [] (by simp) c hc

/-- A placeholder token contains no dollar sign. -/
theorem valTok_ne_dollar (i : Nat) : '$' ∉ valTok i := by
  intro h
  simp only [valTok, List.cons_append, List.mem_cons, List.mem_append,
    List.mem_singleton] at h
  rcases h with h | h | h | h | h | h
  · exact absurd h (by decide)
  · exact absurd h (by decide)
  · exact absurd h (by decide)
  · exact absurd h (by decide)
  · exact repr_toList_ne_dollar i '$' h rfl
  · exact absurd h (by decide)

/-- When the first occurrence of the (dollar-initial) pattern starts right
after a dollar-free prefix, the first-occurrence replace rewrites exactly
there. -/
theorem jsReplaceFirst_boundary (m tl repl : JStr) (hm : ∃ ms, m = '$' :: ms) :
    ∀ R : JStr, '$' ∉ R →
      jsReplaceFirst (R ++ (m ++ tl)) m repl = R ++ (repl ++ tl) := by
  obtain ⟨ms, rfl⟩ := hm
  intro R
  induction R with
  | nil =>
    intro _
    have hpre : ('$' :: ms).isPrefixOf (('$' :: ms) ++ tl) = true := by
      rw [List.isPrefixOf_iff_prefix]
      exact List.prefix_append _ _
    show jsReplaceFirst (('$' :: ms) ++ tl) ('$' :: ms) repl = [] ++ (repl ++ tl)
    rw [List.cons_append, jsReplaceFirst, if_pos (by rw [← List.cons_append]; exact hpre),
      ← List.cons_append, List.drop_left, List.nil_append]
  | cons c cs ih =>
    intro h
    have hc : c ≠ '$' := fun hq => h (hq ▸ List.mem_cons_self c cs)
    have hcs : '$' ∉ cs := fun hq => h (List.mem_cons_of_mem c hq)
    show jsReplaceFirst (c :: (cs ++ ('$' :: ms ++ tl))) ('$' :: ms) repl
      = c :: (cs ++ (repl ++ tl))
    rw [jsReplaceFirst, if_neg, ih hcs]
    intro hpre
    rw [List.isPrefixOf_iff_prefix] at hpre
    rcases hpre with ⟨u, hu⟩
    rw [List.cons_append] at hu
    exact hc (by injection hu with h1 _; exact h1.symm)

/-- Dropping the length of the matched run leaves the unmatched tail. -/
theorem drop_length_takeWhile (p : Char → Bool) (l : JStr) :
    l.drop (l.takeWhile p).length = l.dropWhile p := by
  induction l with
  | nil => simp
  | cons c cs ih =>
    by_cases hc : p c
    · simp [List.takeWhile_cons, List.dropWhile_cons, hc, ih]
    · simp [List.takeWhile_cons, List.dropWhile_cons, hc]

/-- Unfolding of `dollarsOk` at an interpolation head. -/
theorem dollarsOk_interp (cs2 : JStr) :
    dollarsOk ('$' :: '{' :: cs2) =
      (if (cs2.takeWhile (fun ch => ch ≠ '}')).length ≠ 0 ∧
          (cs2.drop (cs2.takeWhile (fun ch => ch ≠ '}')).length).head? = some '}' then
        (cs2.takeWhile (fun ch => ch ≠ '}')).all (fun ch => ch ≠ '$') &&
          dollarsOk ((cs2.drop (cs2.takeWhile (fun ch => ch ≠ '}')).length).drop 1)
      else false) := by
  simp [dollarsOk]

/-- Unfolding of `findInterps` at an interpolation head. -/
theorem findInterps_interp (cs2 : JStr) :
    findInterps ('$' :: '{' :: cs2) =
      (if (cs2.takeWhile (fun ch => ch ≠ '}')).length ≠ 0 ∧
          (cs2.drop (cs2.takeWhile (fun ch => ch ≠ '}')).length).head? = some '}' then
        ('$' :: '{' :: (cs2.takeWhile (fun ch => ch ≠ '}') ++ ['}']))
          :: findInterps ((cs2.drop (cs2.takeWhile (fun ch => ch ≠ '}')).length).drop 1)
      else findInterps ('{' :: cs2)) := by
  simp [findInterps]

/-- Unfolding of `specReplaceInterps` at an interpolation head. -/
theorem specReplaceInterps_interp (i : Nat) (cs2 : JStr) :
    specReplaceInterps i ('$' :: '{' :: cs2) =
      (if (cs2.takeWhile (fun ch => ch ≠ '}')).length ≠ 0 ∧
          (cs2.drop (cs2.takeWhile (fun ch => ch ≠ '}')).length).head? = some '}' then
        valTok i ++ specReplaceInterps (i + 1)
          ((cs2.drop (cs2.takeWhile (fun ch => ch ≠ '}')).length).drop 1)
      else '$' :: specReplaceInterps i ('{' :: cs2)) := by
  simp [specReplaceInterps]

/-- `dollarsOk` skips a non-dollar character. -/
theorem dollarsOk_cons_ne (c : Char) (cs : JStr) (hc : c ≠ '$') :
    dollarsOk (c :: cs) = dollarsOk cs := by
  simp [dollarsOk, hc]

/-- `findInterps` skips a non-dollar character. -/
theorem findInterps_cons_ne (c : Char) (cs : JStr) (hc : c ≠ '$') :
    findInterps (c :: cs) = findInterps cs := by
  simp [findInterps, hc]

/-- `specReplaceInterps` copies a non-dollar character. -/
theorem specReplaceInterps_cons_ne (i : Nat) (c : Char) (cs : JStr) (hc : c ≠ '$') :
    specReplaceInterps i (c :: cs) = c :: specReplaceInterps i cs := by
  simp [specReplaceInterps, hc]

/-- Central refinement for C4: when every dollar in the text begins a
well-formed interpolation, the sequential first-occurrence replacement
performed by the code equals the single-pass replacement prescribed by the
specification, for any dollar-free already-rewritten prefix `R`. -/
theorem seqReplace_spec :
    ∀ (n : Nat) (t : JStr), t.length ≤ n → dollarsOk t = true →
      ∀ (i : Nat) (R : JStr), '$' ∉ R →
        seqReplaceInterps i (findInterps t) (R ++ t) = R ++ specReplaceInterps i t := by
  intro n
  induction n with
  | zero =>
    intro t ht hok i R hR
    have h0 : t = [] := List.eq_nil_of_length_eq_zero (Nat.le_zero.mp ht)
    subst h0
    simp [findInterps, specReplaceInterps, seqReplaceInterps]
  | succ n ih =>
    intro t ht hok i R hR
    cases t with
    | nil => simp [findInterps, specReplaceInterps, seqReplaceInterps]
    | cons c cs =>
      by_cases hc : c = '$'
      · subst hc
        cases cs with
        | nil => simp [dollarsOk] at hok
        | cons c2 cs2 =>
          by_cases hc2 : c2 = '{'
          · subst hc2
            by_cases hcond : (cs2.takeWhile (fun ch => ch ≠ '}')).length ≠ 0 ∧
                (cs2.drop (cs2.takeWhile (fun ch => ch ≠ '}')).length).head? = some '}'
            · rw [dollarsOk_interp, if_pos hcond, Bool.and_eq_true] at hok
              rw [findInterps_interp, if_pos hcond, specReplaceInterps_interp, if_pos hcond]
              -- name the pieces
              obtain ⟨hlen, hhead⟩ := hcond
              obtain ⟨hinner, hrest⟩ := hok
              -- the tail of the match
              have hsplit : cs2 = cs2.takeWhile (fun ch => ch ≠ '}')
                  ++ cs2.drop (cs2.takeWhile (fun ch => ch ≠ '}')).length := by
                rw [drop_length_takeWhile]
                exact (List.takeWhile_append_dropWhile _ _).symm
              have hrem : cs2.drop (cs2.takeWhile (fun ch => ch ≠ '}')).length
                  = '}' :: (cs2.drop (cs2.takeWhile (fun ch => ch ≠ '}')).length).drop 1 := by
                cases hr : cs2.drop (cs2.takeWhile (fun ch => ch ≠ '}')).length with
                | nil => rw [hr] at hhead; cases hhead
                | cons r rs =>
                  rw [hr] at hhead
                  simp only [List.head?_cons, Option.some.injEq] at hhead
                  subst hhead
                  simp
              have hshape : ('$' :: '{' :: cs2)
                  = ('$' :: '{' :: (cs2.takeWhile (fun ch => ch ≠ '}') ++ ['}']))
                    ++ (cs2.drop (cs2.takeWhile (fun ch => ch ≠ '}')).length).drop 1 := by
                conv_lhs => rw [hsplit]
                rw [hrem]
                simp
              rw [seqReplaceInterps, hshape]
              rw [jsReplaceFirst_boundary _ _ _ ⟨'{' :: (cs2.takeWhile (fun ch => ch ≠ '}') ++ ['}']), rfl⟩ R hR]
              have hR3 : '$' ∉ R ++ valTok i := by
                simp only [List.mem_append]
                rintro (hq | hq)
                · exact hR hq
                · exact valTok_ne_dollar i hq
              have hlen3 : ((cs2.drop (cs2.takeWhile (fun ch => ch ≠ '}')).length).drop 1).length ≤ n := by
                simp only [List.length_drop]
                simp only [List.length_cons] at ht
                omega
              rw [← List.append_assoc, ← List.append_assoc]
              exact ih _ hlen3 hrest (i + 1) (R ++ valTok i) hR3
            · rw [dollarsOk_interp, if_neg hcond] at hok
              cases hok
          · rw [show dollarsOk ('$' :: c2 :: cs2) = false from by simp [dollarsOk, hc2]] at hok
            cases hok
      · have hok2 : dollarsOk cs = true := by
          rw [dollarsOk_cons_ne c cs hc] at hok
          exact hok
        have hR2 : '$' ∉ R ++ [c] := by
          simp only [List.mem_append, List.mem_singleton]
          rintro (hq | hq)
          · exact hR hq
          · exact hc hq.symm
        have hlen2 : cs.length ≤ n := by
          simp only [List.length_cons] at ht
          omega
        rw [findInterps_cons_ne c cs hc, specReplaceInterps_cons_ne i c cs hc,
          show R ++ (c :: cs) = (R ++ [c]) ++ cs from by simp]
        rw [ih cs hlen2 hok2 i (R ++ [c]) hR2]
        simp

/-- Unfolding of `specInterpExprs` at an interpolation head. -/
theorem specInterpExprs_interp (cs2 : JStr) :
    specInterpExprs ('$' :: '{' :: cs2) =
      (if (cs2.takeWhile (fun ch => ch ≠ '}')).length ≠ 0 ∧
          (cs2.drop (cs2.takeWhile (fun ch => ch ≠ '}')).length).head? = some '}' then
        cs2.takeWhile (fun ch => ch ≠ '}')
          :: specInterpExprs ((cs2.drop (cs2.takeWhile (fun ch => ch ≠ '}')).length).drop 1)
      else specInterpExprs ('{' :: cs2)) := by
  simp [specInterpExprs]

/-- `specInterpExprs` skips a non-dollar character. -/
theorem specInterpExprs_cons_ne (c : Char) (cs : JStr) (hc : c ≠ '$') :
    specInterpExprs (c :: cs) = specInterpExprs cs := by
  simp [specInterpExprs, hc]

/-- Stripping the delimiters of a well-formed match yields its interior. -/
theorem stripInterpDelims_match (inner : JStr) (h1 : inner.length ≠ 0)
    (h2 : inner.all (fun ch => ch ≠ '}') = true) :
    stripInterpDelims ('$' :: '{' :: (inner ++ ['}'])) = inner := by
  rw [stripInterpDelims]
  simp only [List.dropLast_concat]
  rw [if_pos]
  exact ⟨by simp, h1, h2⟩

/-- The interiors of the matched interpolations are exactly the
specification-side expression list. -/
theorem findInterps_map_strip :
    ∀ (n : Nat) (t : JStr), t.length ≤ n →
      (findInterps t).map stripInterpDelims = specInterpExprs t := by
  intro n
  induction n with
  | zero =>
    intro t ht
    have h0 : t = [] := List.eq_nil_of_length_eq_zero (Nat.le_zero.mp ht)
    subst h0
    simp [findInterps, specInterpExprs]
  | succ n ih =>
    intro t ht
    cases t with
    | nil => simp [findInterps, specInterpExprs]
    | cons c cs =>
      by_cases hc : c = '$'
      · subst hc
        cases cs with
        | nil =>
          simp [findInterps, specInterpExprs]
        | cons c2 cs2 =>
          by_cases hc2 : c2 = '{'
          · subst hc2
            by_cases hcond : (cs2.takeWhile (fun ch => ch ≠ '}')).length ≠ 0 ∧
                (cs2.drop (cs2.takeWhile (fun ch => ch ≠ '}')).length).head? = some '}'
            · rw [findInterps_interp, if_pos hcond, specInterpExprs_interp, if_pos hcond]
              rw [List.map_cons]
              have hall : (cs2.takeWhile (fun ch => ch ≠ '}')).all (fun ch => ch ≠ '}') = true := by
                rw [List.all_eq_true]
                intro x hx
                have hpx := List.mem_takeWhile_imp hx
                simpa using hpx
              rw [stripInterpDelims_match _ hcond.1 hall]
              have hlen3 : ((cs2.drop (cs2.takeWhile (fun ch => ch ≠ '}')).length).drop 1).length ≤ n := by
                simp only [List.length_drop]
                simp only [List.length_cons] at ht
                omega
              rw [ih _ hlen3]
            · rw [findInterps_interp, if_neg hcond, specInterpExprs_interp, if_neg hcond]
              have hlen3 : ('{' :: cs2).length ≤ n := by
                simp only [List.length_cons] at ht ⊢
                omega
              exact ih _ hlen3
          · have hlen2 : (c2 :: cs2).length ≤ n := by
              simp only [List.length_cons] at ht ⊢
              omega
            have hfi : findInterps ('$' :: c2 :: cs2) = findInterps (c2 :: cs2) := by
              simp [findInterps, hc2]
            have hsp : specInterpExprs ('$' :: c2 :: cs2) = specInterpExprs (c2 :: cs2) := by
              simp [specInterpExprs, hc2]
            rw [hfi, hsp]
            exact ih _ hlen2
      · have hlen2 : cs.length ≤ n := by
          simp only [List.length_cons] at ht
          omega
        rw [findInterps_cons_ne c cs hc, specInterpExprs_cons_ne c cs hc]
        exact ih cs hlen2

/-- The `valN: expr` pair list built by the code equals the one prescribed
by the specification. -/
theorem kvPairOf_spec (t : JStr) :
    kvPairOf (findInterps t) =
      (specInterpExprs t).enum.map
        (fun p => ('v' :: 'a' :: 'l' :: (Nat.repr (p.1 + 1)).toList)
          ++ jsStr ": " ++ p.2) := by
  rw [← findInterps_map_strip t.length t (Nat.le_refl _), List.enum_map,
    List.map_map, kvPairOf]
  rfl

/-- C4 amended: for a string span whose immediately preceding source byte is
a backtick, in a non-component file: with no interpolation the span is
replaced by the reference alone and the catalog value is the unmodified
text; with interpolations the span is replaced by
`I18N.template(ref, val-pair list)` and — provided every dollar in the
text begins a well-formed interpolation — the catalog value is the original
text with each interpolation replaced by its `valN` placeholder.  (Without
that proviso the `i`-th sequential replacement can hit an earlier-inserted
placeholder, as the counterexample shows.) -/
theorem claimC4 (filePath : String) (code : JStr) (arg : SpanRec) (val : JStr)
    (hstr : arg.isString = true)
    (hvue : jsEndsWith filePath ".vue" = false)
    (htpl : isTemplateString code arg.range.start = true)
    (hok : dollarsOk arg.text = true) :
    (findInterps arg.text = [] →
      replaceAndUpdate filePath code arg val =
        ⟨code.take arg.range.start ++ val ++ code.drop arg.range.stop, arg.text⟩) ∧
    (findInterps arg.text ≠ [] →
      replaceAndUpdate filePath code arg val =
        ⟨code.take arg.range.start
            ++ templateCallOf val (specInterpExprs arg.text)
            ++ code.drop arg.range.stop,
          specReplaceInterps 1 arg.text⟩) := by
  have hseq : seqReplaceInterps 1 (findInterps arg.text) arg.text
      = specReplaceInterps 1 arg.text := by
    have := seqReplace_spec arg.text.length arg.text (Nat.le_refl _) hok 1 [] (by simp)
    simpa using this
  constructor
  · intro hempty
    rw [replaceAndUpdate]
    simp only [hstr, if_true, hvue, Bool.false_and, if_false, htpl,
      handleTemplateString, hempty, List.length_nil, if_pos rfl]
    simp
  · intro hne
    have hlen : ¬ (findInterps arg.text).length = 0 := by
      intro h0
      exact hne (List.eq_nil_of_length_eq_zero h0)
    rw [replaceAndUpdate]
    simp only [hstr, if_true, hvue, Bool.false_and, if_false, htpl,
      handleTemplateString, if_neg hlen]
    rw [hseq, kvPairOf_spec]
    simp [templateCallOf, List.append_assoc]

set_option maxHeartbeats 1000000 in
/-- C4 counterexample: for the template text `中$${a}${val1}` (backtick
before the span), the catalog value written by the code is
`中{val2}${val1}` — not the claimed original-text-with-placeholders value
`中${val1}{val2}`: the second replacement rewrote the placeholder inserted
by the first one.  (This text violates the dollar-discipline proviso of the
amended claim.) -/
theorem claimC4_counterexample :
    (replaceAndUpdate "demo.ts" c4Code c4Span (jsStr "I18N.common.zhong")).finalReplaceText
      = jsStr "中{val2}${val1}" ∧
    specReplaceInterps 1 c4Span.text = jsStr "中${val1}{val2}" ∧
    (replaceAndUpdate "demo.ts" c4Code c4Span (jsStr "I18N.common.zhong")).finalReplaceText
      ≠ specReplaceInterps 1 c4Span.text ∧
    isTemplateString c4Code c4Span.range.start = true ∧
    dollarsOk c4Span.text = false := by
  have h1 : (replaceAndUpdate "demo.ts" c4Code c4Span (jsStr "I18N.common.zhong")).finalReplaceText
      = jsStr "中{val2}${val1}" := by
    simp [replaceAndUpdate, c4Code, c4Span, isTemplateString, isPropertyAssignment,
      isInVueInterpolation, vueFindOpen, handleTemplateString, findInterps,
      seqReplaceInterps, jsReplaceFirst, valTok, jsStr, btk, jsCharAt,
      generateReplaceValue, kvPairOf, jsJoin, stripInterpDelims]
    all_goals decide
  have h2 : specReplaceInterps 1 c4Span.text = jsStr "中${val1}{val2}" := by
    simp [specReplaceInterps, c4Span, valTok, jsStr]
    all_goals decide
  refine ⟨h1, h2, ?_, ?_, ?_⟩
  · rw [h1, h2]
    decide
  · decide
  · simp [dollarsOk, c4Span, jsStr]

/-- Witness for C4 at a concrete script file with one interpolation. -/
theorem claimC4_witness :
    replaceAndUpdate "w.ts"
        (jsStr "const m = " ++ [btk] ++ jsStr "你有${n}条" ++ [btk] ++ jsStr ";")
        ⟨jsStr "你有${n}条", ⟨11, 18⟩, true⟩ (jsStr "I18N.common.niYou")
      = ⟨(jsStr "const m = " ++ [btk] ++ jsStr "你有${n}条" ++ [btk] ++ jsStr ";").take 11
          ++ templateCallOf (jsStr "I18N.common.niYou")
              (specInterpExprs (jsStr "你有${n}条"))
          ++ (jsStr "const m = " ++ [btk] ++ jsStr "你有${n}条" ++ [btk] ++ jsStr ";").drop 18,
        specReplaceInterps 1 (jsStr "你有${n}条")⟩ :=
  (claimC4 "w.ts"
    (jsStr "const m = " ++ [btk] ++ jsStr "你有${n}条" ++ [btk] ++ jsStr ";")
    ⟨jsStr "你有${n}条", ⟨11, 18⟩, true⟩ (jsStr "I18N.common.niYou")
    rfl (by decide) (by decide)
    (by simp [dollarsOk, jsStr])).2
    (by simp [findInterps, jsStr])

end Kiwi
